import Mathlib

/-!
# Verification of the buffered pull adapter in src/reader.rs (bzip2-rs)

This file gives a shallow embedding of the reader module of the repository:
the generic drive loop Inner::read, and the two thin reader wrappers
BzCompressor::read and BzDecompressor::read.  The codec (the raw Stream of
the external bzip2 library) and the byte source (any Rust Read impl) are kept
abstract: the drive loop is parameterised by a step function for the codec
together with its two counter projections, and by a read function for the
source, exactly as the Rust code is parameterised by the closure it receives
and by the generic reader type R.

Machine integers are modelled as Nat; the u64 counter subtractions of the
Rust code are modelled by a checked subtraction that fails (modelling the
arithmetic panic of a debug build) on underflow, and the slice expression
buf[pos..cap] is modelled by a checked slice that fails (modelling the Rust
bounds panic) when pos > cap or cap > buf.len().  The usize casts are
lossless on the 64-bit platforms the crate targets and are modelled as the
identity on Nat.  Fallible operations return Except / explicit result
constructors; a fuel argument replaces the unbounded Rust loop, with a
dedicated fuelOut result so that termination is a provable statement.
-/

set_option autoImplicit false

namespace BzReader

universe u v w

/-- Scratch buffer capacity: the Rust constructor allocates vec![0; 32 * 1024]. -/
def CAPACITY : Nat := 32 * 1024

/-- Modelled from the spec: the status code the external codec returns at end of
stream (ffi::BZ_STREAM_END of the bindings module, which is not under src/).
The spec calls this status StreamEnd; the numeric value is bzlib's. -/
def BZ_STREAM_END : Int := 4

/-- Modelled from the spec: the status code the external codec returns when the
output buffer is full (ffi::BZ_OUTBUFF_FULL, not under src/).  The spec calls
this status OutputBufferFull; the numeric value is bzlib's. -/
def BZ_OUTBUFF_FULL : Int := -8

/-- Modelled from the spec: the compression action argument (raw::Action of the
repository, not under src/); the spec's Continue action is named Run there. -/
inductive Action : Type where
  | run : Action
  | finish : Action
deriving DecidableEq, Repr

/-- The adapter state, field for field the Rust struct Inner:
stream is the codec state, r the wrapped source, buf the 32 KiB scratch
buffer, cap the count of valid bytes in buf, pos the cursor of the next
unread byte, done the terminal flag. -/
structure Inner (σ : Type u) (C : Type v) : Type (max u v) where
  stream : C
  r : σ
  buf : List Nat
  cap : Nat
  pos : Nat
  done : Bool
deriving DecidableEq, Repr

/-- Write the bytes d into the front of the buffer old, keeping the length of
old: this models a Rust Read impl writing into the fixed slice &mut self.buf,
whose length it cannot change. -/
def writeInto (old d : List Nat) : List Nat :=
  d.take old.length ++ old.drop (d.take old.length).length

/-- Checked slice l[a..b]: models the Rust slice expression, which panics
unless a ≤ b ≤ l.len(). -/
def sliceRange (l : List Nat) (a b : Nat) : Option (List Nat) :=
  if a ≤ b ∧ b ≤ l.length then some ((l.take b).drop a) else none

/-- Checked u64 subtraction a - b: models the Rust counter delta, which
panics (debug build) on underflow. -/
def u64sub (a b : Nat) : Option Nat :=
  if b ≤ a then some (a - b) else none

/-- Outcome of one iteration of the Rust loop body: continue looping, return
Ok(produced) together with the bytes written into the destination, propagate
a source error, return the generic invalid-input error, or hit a modelled
panic (slice out of bounds / counter underflow). -/
inductive IterOut (σ : Type u) (C : Type v) (ε : Type w) : Type (max u v w) where
  | again : Inner σ C → IterOut σ C ε
  | ret : Nat → List Nat → Inner σ C → IterOut σ C ε
  | ioError : ε → Inner σ C → IterOut σ C ε
  | invalid : Inner σ C → IterOut σ C ε
  | crash : IterOut σ C ε
deriving DecidableEq

/-- Result of a whole Inner::read call, with an extra fuelOut constructor for
exhaustion of the fuel that stands in for the unbounded Rust loop. -/
inductive ReadResult (σ : Type u) (C : Type v) (ε : Type w) : Type (max u v w) where
  | ok : Nat → List Nat → Inner σ C → ReadResult σ C ε
  | ioError : ε → Inner σ C → ReadResult σ C ε
  | invalid : Inner σ C → ReadResult σ C ε
  | crash : ReadResult σ C ε
  | fuelOut : Inner σ C → ReadResult σ C ε
deriving DecidableEq

variable {σ : Type u} {C : Type v} {ε : Type w}

/-- The refill step at the top of the Rust loop body: when pos == cap, one
source-level read call refills the scratch buffer, cap is set to the returned
count, pos to 0, and eof records whether the count was 0.  The source is
modelled as a function from its state and the current buffer contents to
either an error or (new state, bytes written, returned count). -/
def refill (src : σ → List Nat → Except ε (σ × List Nat × Nat)) (s : Inner σ C) :
    Except ε (Inner σ C × Bool) :=
  if s.pos = s.cap then
    match src s.r s.buf with
    | Except.error e => Except.error e
    | Except.ok (r', d, n) =>
        Except.ok ({ s with r := r', buf := writeInto s.buf d, cap := n, pos := 0 },
                   decide (n = 0))
  else Except.ok (s, false)

/-- One iteration of the loop body of Inner::read, translated clause by
clause from the Rust: refill when pos == cap, snapshot the counters, invoke
the codec step f on the slice buf[pos..cap], advance pos by the total_in
delta, compute produced as the total_out delta, then interpret the status rc
with the four match arms and the final continue / return Ok(read) test. -/
def innerIter (f : C → List Nat → Bool → C × Int × List Nat) (tin tout : C → Nat)
    (src : σ → List Nat → Except ε (σ × List Nat × Nat)) (s : Inner σ C) :
    IterOut σ C ε :=
  match refill src s with
  | Except.error e => IterOut.ioError e s
  | Except.ok (s1, eof) =>
    match sliceRange s1.buf s1.pos s1.cap with
    | none => IterOut.crash
    | some input =>
      match f s1.stream input eof with
      | (c2, rc, w) =>
        match u64sub (tin c2) (tin s1.stream), u64sub (tout c2) (tout s1.stream) with
        | some consumed, some produced =>
          let s2 : Inner σ C := { s1 with stream := c2, pos := s1.pos + consumed }
          if rc = BZ_STREAM_END ∧ 0 < produced then
            IterOut.ret produced w { s2 with done := true }
          else if rc = BZ_OUTBUFF_FULL ∨ rc = BZ_STREAM_END then
            if produced = 0 ∧ eof = false then IterOut.again s2
            else IterOut.ret produced w s2
          else if 0 ≤ rc then
            if produced = 0 ∧ eof = false then IterOut.again s2
            else IterOut.ret produced w s2
          else IterOut.invalid s2
        | _, _ => IterOut.crash

/-- The Rust loop, with fuel standing in for the unbounded loop. -/
def innerLoop (f : C → List Nat → Bool → C × Int × List Nat) (tin tout : C → Nat)
    (src : σ → List Nat → Except ε (σ × List Nat × Nat)) :
    Nat → Inner σ C → ReadResult σ C ε
  | 0, s => ReadResult.fuelOut s
  | Nat.succ fuel, s =>
    match innerIter f tin tout src s with
    | IterOut.again s' => innerLoop f tin tout src fuel s'
    | IterOut.ret n w s' => ReadResult.ok n w s'
    | IterOut.ioError e s' => ReadResult.ioError e s'
    | IterOut.invalid s' => ReadResult.invalid s'
    | IterOut.crash => ReadResult.crash

/-- Inner::read: the done short-circuit followed by the drive loop. -/
def innerRead (f : C → List Nat → Bool → C × Int × List Nat) (tin tout : C → Nat)
    (src : σ → List Nat → Except ε (σ × List Nat × Nat))
    (fuel : Nat) (s : Inner σ C) : ReadResult σ C ε :=
  if s.done then ReadResult.ok 0 [] s else innerLoop f tin tout src fuel s

/-- The closure BzCompressor::read passes to Inner::read: call the raw
compress with the whole destination slice (modelled by its length) and action
Finish if eof else Run.  The raw compress itself (raw.rs, not under src/) is
an abstract parameter. -/
def compClosure (compress : C → List Nat → Nat → Action → C × Int × List Nat)
    (dstLen : Nat) (c : C) (input : List Nat) (eof : Bool) : C × Int × List Nat :=
  compress c input dstLen (if eof then Action.finish else Action.run)

/-- BzCompressor::read: no special case, straight into Inner::read. -/
def compRead (compress : C → List Nat → Nat → Action → C × Int × List Nat)
    (tin tout : C → Nat) (src : σ → List Nat → Except ε (σ × List Nat × Nat))
    (dstLen fuel : Nat) (s : Inner σ C) : ReadResult σ C ε :=
  innerRead (compClosure compress dstLen) tin tout src fuel s

/-- The closure BzDecompressor::read passes to Inner::read: the eof flag is
bound as _eof and ignored; the raw decompress gets the input and the whole
destination slice. -/
def decompClosure (decompress : C → List Nat → Nat → C × Int × List Nat)
    (dstLen : Nat) (c : C) (input : List Nat) (_eof : Bool) : C × Int × List Nat :=
  decompress c input dstLen

/-- BzDecompressor::read: the zero-length destination guard, then Inner::read. -/
def decompRead (decompress : C → List Nat → Nat → C × Int × List Nat)
    (tin tout : C → Nat) (src : σ → List Nat → Except ε (σ × List Nat × Nat))
    (dstLen fuel : Nat) (s : Inner σ C) : ReadResult σ C ε :=
  if dstLen = 0 then ReadResult.ok 0 [] s
  else innerRead (decompClosure decompress dstLen) tin tout src fuel s

/-- The Inner value both constructors build: fresh codec state, the wrapped
source, a zeroed 32 KiB scratch buffer, cap = 0, pos = 0, done = false. -/
def mkInner (c : C) (r : σ) : Inner σ C :=
  { stream := c, r := r, buf := List.replicate CAPACITY 0, cap := 0, pos := 0,
    done := false }

/-- The source component of the state carried by a read result, when the
result carries one. -/
def srcOf : ReadResult σ C ε → Option σ
  | ReadResult.ok _ _ s => some s.r
  | ReadResult.ioError _ s => some s.r
  | ReadResult.invalid s => some s.r
  | ReadResult.crash => none
  | ReadResult.fuelOut s => some s.r

/-- Whether a read result is the fuel-exhaustion marker (which has no Rust
counterpart: a Rust execution that never returns). -/
def isFuelOut : ReadResult σ C ε → Bool
  | ReadResult.fuelOut _ => true
  | _ => false

/-- The state carried by a read result, when the result carries one. -/
def stateOf : ReadResult σ C ε → Option (Inner σ C)
  | ReadResult.ok _ _ s => some s
  | ReadResult.ioError _ s => some s
  | ReadResult.invalid s => some s
  | ReadResult.crash => none
  | ReadResult.fuelOut s => some s

/-- The state carried by an iteration outcome, when it carries one. -/
def iterStateOf : IterOut σ C ε → Option (Inner σ C)
  | IterOut.again s => some s
  | IterOut.ret _ _ s => some s
  | IterOut.ioError _ s => some s
  | IterOut.invalid s => some s
  | IterOut.crash => none

/-- The adapter state after the codec call of one iteration: the cursor is
advanced by exactly the total_in delta of that single call, and the finished
flag is set exactly when the call reported StreamEnd with a positive
total_out delta. -/
def postState (tin tout : C → Nat) (s1 : Inner σ C) (c2 : C) (rc : Int) :
    Inner σ C where
  stream := c2
  r := s1.r
  buf := s1.buf
  cap := s1.cap
  pos := s1.pos + (tin c2 - tin s1.stream)
  done := s1.done || decide (rc = BZ_STREAM_END ∧ 0 < tout c2 - tout s1.stream)

/-- The decision part of the restructured iteration, applied to the three
components of the codec call result. -/
def iterDecide (tin tout : C → Nat) (s1 : Inner σ C) (eof : Bool)
    (c2 : C) (rc : Int) (w : List Nat) : IterOut σ C ε :=
  if rc < 0 ∧ rc ≠ BZ_OUTBUFF_FULL then IterOut.invalid (postState tin tout s1 c2 rc)
  else if tout c2 - tout s1.stream = 0 ∧ eof = false then
    IterOut.again (postState tin tout s1 c2 rc)
  else IterOut.ret (tout c2 - tout s1.stream) w (postState tin tout s1 c2 rc)

/-- The drive-loop iteration, restructured the way the spec states it: call
the codec once on the input slice buf[pos..cap], read off consumed and
produced as the counter deltas of that single call, fail on an unrecognized
status, loop again exactly when produced = 0 and not eof, and return
Ok(produced) otherwise. -/
def iterSpec (f : C → List Nat → Bool → C × Int × List Nat) (tin tout : C → Nat)
    (s1 : Inner σ C) (eof : Bool) : IterOut σ C ε :=
  match f s1.stream ((s1.buf.take s1.cap).drop s1.pos) eof with
  | (c2, rc, w) => iterDecide tin tout s1 eof c2 rc w

/-!
## A concrete codec and source instance

The codec engine itself (the raw Stream wrapping the external bzip2 library)
is not part of src/, so for the claims that quantify over whole
compress-then-decompress runs it is modelled from the spec.

Modelled from the spec: a StreamCodec pair obeying exactly the interface
contract of spec section 4.1 — progress is reported only through the
total_in / total_out counter deltas of a single call, output is bounded by
the destination slice, the statuses are the non-negative progress codes and
StreamEnd, and the compressed form is self-terminating so that StreamEnd is
reported exactly when the end marker has been emitted / decoded.  The
transform itself is a simple reversible framing (each byte b becomes the
token 1, b; the end marker is the single byte 0) standing in for the opaque
bzip2 block transform.
-/

/-- State of the modelled compressor: the two counters, the encoded bytes
queued but not yet emitted, and whether the finish marker has been queued. -/
structure MComp : Type where
  tin : Nat
  tout : Nat
  pend : List Nat
  sentEnd : Bool
deriving DecidableEq, Repr

/-- State of the modelled decompressor: the two counters, the compressed
bytes consumed but not yet decoded, and whether the end marker was seen. -/
structure MDecomp : Type where
  tin : Nat
  tout : Nat
  pend : List Nat
  ended : Bool
deriving DecidableEq, Repr

/-- The modelled compressed form of a byte string: each byte becomes a
two-byte token whose tag is 1. -/
def encBytes (s : List Nat) : List Nat :=
  s.flatMap (fun b => [1, b])

/-- Decode at most budget bytes from a token stream: returns the decoded
bytes, the undecoded remainder, and whether the end marker was reached (the
marker is left in the remainder, so bytes after it are never decoded). -/
def decodeAux : Nat → List Nat → List Nat × List Nat × Bool
  | _, [] => ([], [], false)
  | b, t :: r =>
    if t = 0 then ([], t :: r, true)
    else
      match r with
      | [] => ([], [t], false)
      | x :: r2 =>
        match b with
        | 0 => ([], t :: x :: r2, false)
        | b + 1 =>
          let res := decodeAux b r2
          (x :: res.1, res.2.1, res.2.2)

/-- Modelled from the spec: the raw compress call.  It consumes the whole
input into the queue, queues the end marker on the first Finish, emits up to
dstLen queued bytes, bumps the counters by the consumed and produced amounts,
and reports StreamEnd once the marker has been queued and the queue drained,
a plain progress code (1) otherwise. -/
def mCompress (c : MComp) (input : List Nat) (dstLen : Nat) (a : Action) :
    MComp × Int × List Nat :=
  let sent := c.sentEnd || decide (a = Action.finish)
  let q := c.pend ++ encBytes input ++
    (if c.sentEnd = false ∧ a = Action.finish then [0] else [])
  let emit := q.take dstLen
  let rest := q.drop dstLen
  ({ tin := c.tin + input.length, tout := c.tout + emit.length, pend := rest,
     sentEnd := sent },
   if sent = true ∧ rest = [] then BZ_STREAM_END else 1, emit)

/-- Modelled from the spec: the raw decompress call.  It consumes the whole
input into the queue, decodes up to dstLen bytes from the queue, stops at the
end marker (which it leaves in place, so trailing garbage after the marker is
never decoded), bumps the counters, and reports StreamEnd once the marker has
been reached, a plain progress code (0) otherwise. -/
def mDecompress (c : MDecomp) (input : List Nat) (dstLen : Nat) :
    MDecomp × Int × List Nat :=
  let q := c.pend ++ input
  let res := decodeAux dstLen q
  let ended := c.ended || res.2.2
  ({ tin := c.tin + input.length, tout := c.tout + res.1.length, pend := res.2.1,
     ended := ended },
   if ended = true then BZ_STREAM_END else 0, res.1)

/-- A source over an in-memory byte list, the Read impl of a byte slice: each
call copies min(remaining, buffer length) bytes to the front of the buffer
and returns that count; 0 once the list is exhausted.  It never fails. -/
def listSrc (st : List Nat) (b : List Nat) : Except Unit (List Nat × List Nat × Nat) :=
  Except.ok (st.drop (min st.length b.length), st.take (min st.length b.length),
             min st.length b.length)

/-- The destination length the round-trip driver hands the compressor: large
enough that one drained scratch buffer always fits in one call. -/
def COMPDST : Nat := 2 * CAPACITY + 1

/-- Repeatedly call BzCompressor::read, appending the bytes of each call to
acc, until a call returns Ok(0); gives up (none) only when the call budget or
the per-call fuel runs out or a non-ok result appears.  This is the
read_to_end driver of the tests. -/
def compDrive : Nat → Inner (List Nat) MComp → List Nat → Option (List Nat)
  | 0, _, _ => none
  | k + 1, s, acc =>
    match compRead mCompress MComp.tin MComp.tout listSrc COMPDST 2 s with
    | ReadResult.ok n w s' =>
        if n = 0 then some acc else compDrive k s' (acc ++ w.take n)
    | _ => none

/-- Repeatedly call BzDecompressor::read with a CAPACITY-sized destination,
appending the bytes of each call to acc, until a call returns Ok(0). -/
def decompDrive : Nat → Inner (List Nat) MDecomp → List Nat → Option (List Nat)
  | 0, _, _ => none
  | k + 1, s, acc =>
    match decompRead mDecompress MDecomp.tin MDecomp.tout listSrc CAPACITY 2 s with
    | ReadResult.ok n w s' =>
        if n = 0 then some acc else decompDrive k s' (acc ++ w.take n)
    | _ => none

/-- A fresh BzCompressor over the in-memory source S. -/
def compInit (S : List Nat) : Inner (List Nat) MComp :=
  mkInner { tin := 0, tout := 0, pend := [], sentEnd := false } S

/-- A fresh BzDecompressor over the in-memory source T. -/
def decompInit (T : List Nat) : Inner (List Nat) MDecomp :=
  mkInner { tin := 0, tout := 0, pend := [], ended := false } T

/-- Half the scratch capacity: the number of bytes one full scratch refill
of two-byte tokens decodes to. -/
def HALFCAP : Nat := 16 * 1024

/-- Initial state for the zero-length-destination counterexample: a fresh
modelled compressor over the one-byte source 7 with a 4-byte scratch. -/
def c4wStart : Inner (List Nat) MComp :=
  Inner.mk (MComp.mk 0 0 [] false) [7] [0, 0, 0, 0] 0 0 false

/-- Initial state of the concrete termination run: a modelled decompressor
over the in-memory source 1,7,0 with a 2-byte scratch. -/
def c2wStart : Inner (List Nat) MDecomp :=
  Inner.mk (MDecomp.mk 0 0 [] false) [1, 7, 0] [0, 0] 0 0 false

/-- Initial state of the concrete no-panic run: a modelled decompressor over
the in-memory source 1,9 with a 3-byte scratch. -/
def c9wStart : Inner (List Nat) MDecomp :=
  Inner.mk (MDecomp.mk 0 0 [] false) [1, 9] [0, 0, 0] 0 0 false

/-- Initial state of the concrete invariant-preservation run: a modelled
decompressor over the in-memory source 1,5 with a 2-byte scratch. -/
def c6wStart : Inner (List Nat) MDecomp :=
  Inner.mk (MDecomp.mk 0 0 [] false) [1, 5] [0, 0] 0 0 false

/-- Final state of that run: both source bytes staged and consumed, one byte
decoded. -/
def c6wEnd : Inner (List Nat) MDecomp :=
  Inner.mk (MDecomp.mk 2 1 [] false) [] [1, 5] 2 2 false

/-!
## Helper lemmas and the single-iteration characterization
-/

theorem writeInto_length (old d : List Nat) : (writeInto old d).length = old.length := by
  simp [writeInto]

theorem sliceRange_eq_some {l : List Nat} {a b : Nat} (h1 : a ≤ b) (h2 : b ≤ l.length) :
    sliceRange l a b = some ((l.take b).drop a) := by
  simp [sliceRange, h1, h2]

theorem sliceRange_some_inv {l : List Nat} {a b : Nat} {i : List Nat}
    (h : sliceRange l a b = some i) :
    a ≤ b ∧ b ≤ l.length ∧ i = (l.take b).drop a := by
  by_cases hc : a ≤ b ∧ b ≤ l.length
  · refine ⟨hc.1, hc.2, ?_⟩
    rw [sliceRange, if_pos hc] at h
    exact (Option.some_inj.mp h).symm
  · rw [sliceRange, if_neg hc] at h
    exact absurd h (by simp)

theorem slice_length {l : List Nat} {a b : Nat} (h2 : b ≤ l.length) :
    ((l.take b).drop a).length = b - a := by
  simp [Nat.min_eq_left h2]

theorem u64sub_of_le {a b : Nat} (h : b ≤ a) : u64sub a b = some (a - b) := by
  simp [u64sub, h]

/-- One iteration of the translated loop body agrees with the restructured
iteration iterSpec, whenever the refill step succeeds, the state it yields is
in bounds, and the codec call does not decrease either counter. -/
theorem innerIter_eq_iterSpec
    (f : C → List Nat → Bool → C × Int × List Nat) (tin tout : C → Nat)
    (src : σ → List Nat → Except ε (σ × List Nat × Nat))
    {s s1 : Inner σ C} {eof : Bool}
    (hrefill : refill src s = Except.ok (s1, eof))
    (hpos : s1.pos ≤ s1.cap) (hcap : s1.cap ≤ s1.buf.length)
    (hmi : tin s1.stream ≤ tin (f s1.stream ((s1.buf.take s1.cap).drop s1.pos) eof).1)
    (hmo : tout s1.stream ≤ tout (f s1.stream ((s1.buf.take s1.cap).drop s1.pos) eof).1) :
    innerIter f tin tout src s = iterSpec f tin tout s1 eof := by
  rcases hf : f s1.stream ((s1.buf.take s1.cap).drop s1.pos) eof with ⟨c2, rc, w⟩
  rw [hf] at hmi hmo
  simp only at hmi hmo
  unfold innerIter iterSpec
  rw [hrefill]
  simp only [sliceRange_eq_some hpos hcap, hf, u64sub_of_le hmi, u64sub_of_le hmo]
  unfold iterDecide
  by_cases h1 : rc = BZ_STREAM_END ∧ 0 < tout c2 - tout s1.stream
  · rw [if_pos h1]
    have hrcneg : ¬ (rc < 0 ∧ rc ≠ BZ_OUTBUFF_FULL) := by
      rcases h1 with ⟨h1a, _⟩
      rw [h1a]
      intro hh
      exact absurd hh.1 (by norm_num [BZ_STREAM_END])
    rw [if_neg hrcneg]
    have hp : ¬ (tout c2 - tout s1.stream = 0 ∧ eof = false) := by
      intro hh
      omega
    rw [if_neg hp]
    simp [postState, h1]
  · rw [if_neg h1]
    have hdone : (s1.done || decide (rc = BZ_STREAM_END ∧ 0 < tout c2 - tout s1.stream))
        = s1.done := by
      rw [decide_eq_false h1, Bool.or_false]
    by_cases h2 : rc = BZ_OUTBUFF_FULL ∨ rc = BZ_STREAM_END
    · rw [if_pos h2]
      have hrcneg : ¬ (rc < 0 ∧ rc ≠ BZ_OUTBUFF_FULL) := by
        intro hh
        rcases h2 with h2 | h2
        · exact hh.2 h2
        · rw [h2] at hh
          exact absurd hh.1 (by norm_num [BZ_STREAM_END])
      rw [if_neg hrcneg]
      by_cases h3 : tout c2 - tout s1.stream = 0 ∧ eof = false
      · rw [if_pos h3, if_pos h3]
        simp [postState, hdone]
        intro ha hb
        exact absurd ⟨ha, by omega⟩ h1
      · rw [if_neg h3, if_neg h3]
        simp [postState, hdone]
        intro ha hb
        exact absurd ⟨ha, by omega⟩ h1
    · rw [if_neg h2]
      by_cases h4 : (0 : Int) ≤ rc
      · rw [if_pos h4]
        have hrcneg : ¬ (rc < 0 ∧ rc ≠ BZ_OUTBUFF_FULL) := by
          intro hh
          omega
        rw [if_neg hrcneg]
        by_cases h3 : tout c2 - tout s1.stream = 0 ∧ eof = false
        · rw [if_pos h3, if_pos h3]
          simp [postState, hdone]
          intro ha hb
          exact absurd ⟨ha, by omega⟩ h1
        · rw [if_neg h3, if_neg h3]
          simp [postState, hdone]
          intro ha hb
          exact absurd ⟨ha, by omega⟩ h1
      · rw [if_neg h4]
        have hrcneg : rc < 0 ∧ rc ≠ BZ_OUTBUFF_FULL := by
          constructor
          · omega
          · intro hh
            exact h2 (Or.inl hh)
        rw [if_pos hrcneg]
        simp [postState, hdone]
        intro ha hb
        exact absurd ⟨ha, by omega⟩ h1

/-- When the cursor has not reached the fill level, the refill step is a
no-op: no source call, state unchanged, eof false. -/
theorem refill_no_op (src : σ → List Nat → Except ε (σ × List Nat × Nat))
    {s : Inner σ C} (h : s.pos ≠ s.cap) : refill src s = Except.ok (s, false) := by
  simp [refill, h]

/-- When the cursor has reached the fill level and the source succeeds, the
refill step performs exactly one source-level read: the returned count
becomes cap, the cursor is reset to 0, and eof holds exactly when the count
is 0. -/
theorem refill_one_read (src : σ → List Nat → Except ε (σ × List Nat × Nat))
    {s : Inner σ C} {r' : σ} {d : List Nat} {n : Nat}
    (h : s.pos = s.cap) (hsrc : src s.r s.buf = Except.ok (r', d, n)) :
    refill src s =
      Except.ok ({ s with r := r', buf := writeInto s.buf d, cap := n, pos := 0 },
                 decide (n = 0)) := by
  simp [refill, h, hsrc]

/-- When the cursor has reached the fill level and the source fails, the
refill step propagates the error. -/
theorem refill_error (src : σ → List Nat → Except ε (σ × List Nat × Nat))
    {s : Inner σ C} {e : ε}
    (h : s.pos = s.cap) (hsrc : src s.r s.buf = Except.error e) :
    refill src s = Except.error e := by
  simp [refill, h, hsrc]

/-- The refill step never touches the codec state or the done flag. -/
theorem refill_frame (src : σ → List Nat → Except ε (σ × List Nat × Nat))
    {s s1 : Inner σ C} {eof : Bool}
    (h : refill src s = Except.ok (s1, eof)) :
    s1.stream = s.stream ∧ s1.done = s.done ∧ s1.buf.length = s.buf.length := by
  unfold refill at h
  by_cases hp : s.pos = s.cap
  · rw [if_pos hp] at h
    rcases hs : src s.r s.buf with e | ⟨r', d, n⟩
    · rw [hs] at h
      exact absurd h (by simp)
    · rw [hs] at h
      simp only [Except.ok.injEq, Prod.mk.injEq] at h
      rcases h with ⟨h1, _⟩
      subst h1
      exact ⟨rfl, rfl, writeInto_length s.buf d⟩
  · rw [if_neg hp] at h
    simp only [Except.ok.injEq, Prod.mk.injEq] at h
    rcases h with ⟨h1, _⟩
    subst h1
    exact ⟨rfl, rfl, rfl⟩

theorem innerRead_done (f : C → List Nat → Bool → C × Int × List Nat)
    (tin tout : C → Nat) (src : σ → List Nat → Except ε (σ × List Nat × Nat))
    (fuel : Nat) {s : Inner σ C} (h : s.done = true) :
    innerRead f tin tout src fuel s = ReadResult.ok 0 [] s := by
  simp [innerRead, h]

theorem innerRead_not_done (f : C → List Nat → Bool → C × Int × List Nat)
    (tin tout : C → Nat) (src : σ → List Nat → Except ε (σ × List Nat × Nat))
    (fuel : Nat) {s : Inner σ C} (h : s.done = false) :
    innerRead f tin tout src fuel s = innerLoop f tin tout src fuel s := by
  simp [innerRead, h]

theorem innerLoop_succ (f : C → List Nat → Bool → C × Int × List Nat)
    (tin tout : C → Nat) (src : σ → List Nat → Except ε (σ × List Nat × Nat))
    (fuel : Nat) (s : Inner σ C) :
    innerLoop f tin tout src (fuel + 1) s =
      (match innerIter f tin tout src s with
       | IterOut.again s' => innerLoop f tin tout src fuel s'
       | IterOut.ret n w s' => ReadResult.ok n w s'
       | IterOut.ioError e s' => ReadResult.ioError e s'
       | IterOut.invalid s' => ReadResult.invalid s'
       | IterOut.crash => ReadResult.crash) := rfl

/-- Inversion for one iteration: it either crashes, propagates a refill
error with the pre-iteration state, or the refill succeeded with an in-bounds
state and the iteration is described by iterSpec. -/
theorem innerIter_inversion (f : C → List Nat → Bool → C × Int × List Nat)
    (tin tout : C → Nat) (src : σ → List Nat → Except ε (σ × List Nat × Nat))
    (s : Inner σ C) :
    innerIter f tin tout src s = IterOut.crash
    ∨ (∃ e, refill src s = Except.error e
        ∧ innerIter f tin tout src s = IterOut.ioError e s)
    ∨ (∃ s1 eof, refill src s = Except.ok (s1, eof)
        ∧ s1.pos ≤ s1.cap ∧ s1.cap ≤ s1.buf.length
        ∧ tin s1.stream ≤ tin (f s1.stream ((s1.buf.take s1.cap).drop s1.pos) eof).1
        ∧ tout s1.stream ≤ tout (f s1.stream ((s1.buf.take s1.cap).drop s1.pos) eof).1
        ∧ innerIter f tin tout src s = iterSpec f tin tout s1 eof) := by
  rcases hre : refill src s with e | ⟨s1, eof⟩
  · right; left
    refine ⟨e, rfl, ?_⟩
    unfold innerIter
    rw [hre]
  · by_cases hb : s1.pos ≤ s1.cap ∧ s1.cap ≤ s1.buf.length
    · by_cases hmi : tin s1.stream
          ≤ tin (f s1.stream ((s1.buf.take s1.cap).drop s1.pos) eof).1
      · by_cases hmo : tout s1.stream
            ≤ tout (f s1.stream ((s1.buf.take s1.cap).drop s1.pos) eof).1
        · right; right
          exact ⟨s1, eof, rfl, hb.1, hb.2, hmi, hmo,
            innerIter_eq_iterSpec f tin tout src hre hb.1 hb.2 hmi hmo⟩
        · left
          rcases hfc : f s1.stream ((s1.buf.take s1.cap).drop s1.pos) eof
            with ⟨c2, rc, w⟩
          rw [hfc] at hmo
          simp only at hmo
          have h2 : u64sub (tout c2) (tout s1.stream) = none := by
            unfold u64sub
            rw [if_neg hmo]
          unfold innerIter
          rw [hre]
          simp only [sliceRange_eq_some hb.1 hb.2, hfc, h2]
          cases hu : u64sub (tin c2) (tin s1.stream) <;> rfl
      · left
        rcases hfc : f s1.stream ((s1.buf.take s1.cap).drop s1.pos) eof
          with ⟨c2, rc, w⟩
        rw [hfc] at hmi
        simp only at hmi
        have h1 : u64sub (tin c2) (tin s1.stream) = none := by
          unfold u64sub
          rw [if_neg hmi]
        unfold innerIter
        rw [hre]
        simp only [sliceRange_eq_some hb.1 hb.2, hfc, h1]
    · left
      have hsl : sliceRange s1.buf s1.pos s1.cap = none := by
        rw [sliceRange, if_neg hb]
      unfold innerIter
      rw [hre]
      simp only [hsl]

/-- The state carried by any outcome of iterSpec is the postState of the
codec call it performed. -/
theorem iterSpec_stateOf (f : C → List Nat → Bool → C × Int × List Nat)
    (tin tout : C → Nat) (s1 : Inner σ C) (eof : Bool) :
    iterStateOf (iterSpec f tin tout s1 eof : IterOut σ C ε)
      = some (postState tin tout s1
          (f s1.stream ((s1.buf.take s1.cap).drop s1.pos) eof).1
          (f s1.stream ((s1.buf.take s1.cap).drop s1.pos) eof).2.1) := by
  rcases hfc : f s1.stream ((s1.buf.take s1.cap).drop s1.pos) eof with ⟨c2, rc, w⟩
  simp only [iterSpec, hfc, iterDecide]
  split_ifs <;> rfl

/-- The postState of an in-bounds iteration whose consumed delta respects the
input-slice length keeps the adapter invariant, preserves the scratch length,
and can only raise the done flag. -/
theorem postState_inv (tin tout : C → Nat)
    (src : σ → List Nat → Except ε (σ × List Nat × Nat))
    {s s1 : Inner σ C} {eof : Bool}
    (hre : refill src s = Except.ok (s1, eof))
    (hpos : s1.pos ≤ s1.cap) (hcap : s1.cap ≤ s1.buf.length)
    (c2 : C) (rc : Int)
    (hlen : tin c2 - tin s1.stream ≤ s1.cap - s1.pos) :
    (postState tin tout s1 c2 rc).pos ≤ (postState tin tout s1 c2 rc).cap
    ∧ (postState tin tout s1 c2 rc).cap ≤ (postState tin tout s1 c2 rc).buf.length
    ∧ (postState tin tout s1 c2 rc).buf.length = s.buf.length
    ∧ (s.done = true → (postState tin tout s1 c2 rc).done = true) := by
  have hfr := refill_frame src hre
  refine ⟨?_, hcap, hfr.2.2, ?_⟩
  · simp only [postState]
    omega
  · intro hd
    simp only [postState]
    rw [hfr.2.1, hd]
    rfl

/-- The drive loop preserves the adapter invariant pos ≤ cap ≤ buf length,
never changes the scratch length, and never lowers the done flag, provided
the codec consumes at most the input slice it is shown. -/
theorem innerLoop_preserves (f : C → List Nat → Bool → C × Int × List Nat)
    (tin tout : C → Nat) (src : σ → List Nat → Except ε (σ × List Nat × Nat))
    (hlen : ∀ c input eof, tin (f c input eof).1 - tin c ≤ input.length) :
    ∀ (fuel : Nat) (s s' : Inner σ C), s.pos ≤ s.cap → s.cap ≤ s.buf.length →
      stateOf (innerLoop f tin tout src fuel s) = some s' →
      s'.pos ≤ s'.cap ∧ s'.cap ≤ s'.buf.length ∧ s'.buf.length = s.buf.length
        ∧ (s.done = true → s'.done = true) := by
  intro fuel
  induction fuel with
  | zero =>
    intro s s' h1 h2 h3
    simp only [innerLoop, stateOf, Option.some.injEq] at h3
    subst h3
    exact ⟨h1, h2, rfl, fun h => h⟩
  | succ fuel ih =>
    intro s s' h1 h2 h3
    rw [innerLoop_succ] at h3
    rcases innerIter_inversion f tin tout src s with hcr | ⟨e, _, hit⟩
      | ⟨s1, eof, hre, hp1, hc1, hmi1, hmo1, hit⟩
    · rw [hcr] at h3
      simp [stateOf] at h3
    · rw [hit] at h3
      simp only [stateOf, Option.some.injEq] at h3
      subst h3
      exact ⟨h1, h2, rfl, fun h => h⟩
    · rw [hit] at h3
      rcases hfc : f s1.stream ((s1.buf.take s1.cap).drop s1.pos) eof with ⟨c2, rc, w⟩
      have hl2 : tin c2 - tin s1.stream ≤ s1.cap - s1.pos := by
        have hx := hlen s1.stream ((s1.buf.take s1.cap).drop s1.pos) eof
        rw [hfc] at hx
        simp only at hx
        rw [slice_length hc1] at hx
        exact hx
      have hps := postState_inv tin tout src hre hp1 hc1 c2 rc hl2
      simp only [iterSpec, hfc, iterDecide] at h3
      split_ifs at h3 with hA hB
      · simp only [stateOf, Option.some.injEq] at h3
        subst h3
        exact hps
      · have hrec := ih (postState tin tout s1 c2 rc) s' hps.1 hps.2.1 h3
        refine ⟨hrec.1, hrec.2.1, ?_, ?_⟩
        · rw [hrec.2.2.1]
          exact hps.2.2.1
        · intro hd
          exact hrec.2.2.2 (hps.2.2.2 hd)
      · simp only [stateOf, Option.some.injEq] at h3
        subst h3
        exact hps

/-- When the source never over-reports its count and the codec never moves a
counter backwards, an iteration from an in-bounds state is never a crash: it
is either a propagated refill error or an iterSpec step from an in-bounds
refilled state. -/
theorem innerIter_good (f : C → List Nat → Bool → C × Int × List Nat)
    (tin tout : C → Nat) (src : σ → List Nat → Except ε (σ × List Nat × Nat))
    (hsrc : ∀ st b r' d n, src st b = Except.ok (r', d, n) → n ≤ b.length)
    (hmi : ∀ c input eof, tin c ≤ tin (f c input eof).1)
    (hmo : ∀ c input eof, tout c ≤ tout (f c input eof).1)
    {s : Inner σ C} (h1 : s.pos ≤ s.cap) (h2 : s.cap ≤ s.buf.length) :
    (∃ e, refill src s = Except.error e
      ∧ innerIter f tin tout src s = IterOut.ioError e s)
    ∨ (∃ s1 eof, refill src s = Except.ok (s1, eof)
        ∧ s1.pos ≤ s1.cap ∧ s1.cap ≤ s1.buf.length
        ∧ innerIter f tin tout src s = iterSpec f tin tout s1 eof) := by
  rcases hre : refill src s with e | ⟨s1, eof⟩
  · left
    refine ⟨e, rfl, ?_⟩
    unfold innerIter
    rw [hre]
  · right
    have hre2 := hre
    have hb : s1.pos ≤ s1.cap ∧ s1.cap ≤ s1.buf.length := by
      unfold refill at hre2
      by_cases hp : s.pos = s.cap
      · rw [if_pos hp] at hre2
        rcases hs : src s.r s.buf with e | ⟨r', d, n⟩
        · rw [hs] at hre2
          exact absurd hre2 (by simp)
        · rw [hs] at hre2
          simp only [Except.ok.injEq, Prod.mk.injEq] at hre2
          rcases hre2 with ⟨hq, _⟩
          subst hq
          refine ⟨Nat.zero_le _, ?_⟩
          have hn := hsrc s.r s.buf r' d n hs
          simpa [writeInto_length] using hn
      · rw [if_neg hp] at hre2
        simp only [Except.ok.injEq, Prod.mk.injEq] at hre2
        rcases hre2 with ⟨hq, _⟩
        subst hq
        exact ⟨h1, h2⟩
    exact ⟨s1, eof, rfl, hb.1, hb.2,
      innerIter_eq_iterSpec f tin tout src hre hb.1 hb.2 (hmi _ _ _) (hmo _ _ _)⟩

theorem decodeAux_nil (b : Nat) : decodeAux b [] = ([], [], false) := by
  rw [decodeAux.eq_def]

theorem decodeAux_marker (b : Nat) (r : List Nat) :
    decodeAux b (0 :: r) = ([], 0 :: r, true) := by
  rw [decodeAux.eq_def]
  simp

theorem decodeAux_half (b t : Nat) (ht : t ≠ 0) : decodeAux b [t] = ([], [t], false) := by
  rw [decodeAux.eq_def]
  simp [ht]

theorem decodeAux_spent (t x : Nat) (r2 : List Nat) (ht : t ≠ 0) :
    decodeAux 0 (t :: x :: r2) = ([], t :: x :: r2, false) := by
  rw [decodeAux.eq_def]
  simp [ht]

theorem decodeAux_step (b t x : Nat) (r2 : List Nat) (ht : t ≠ 0) :
    decodeAux (b + 1) (t :: x :: r2)
      = (x :: (decodeAux b r2).1, (decodeAux b r2).2.1, (decodeAux b r2).2.2) := by
  rw [decodeAux.eq_def]
  simp [ht]

/-- The decoder never produces more bytes than its budget. -/
theorem decodeAux_out_le : ∀ (b : Nat) (l : List Nat), (decodeAux b l).1.length ≤ b := by
  intro b
  induction b with
  | zero =>
    intro l
    rcases l with _ | ⟨t, r⟩
    · simp [decodeAux_nil]
    · by_cases ht : t = 0
      · subst ht
        simp [decodeAux_marker]
      · rcases r with _ | ⟨x, r2⟩
        · simp [decodeAux_half 0 t ht]
        · simp [decodeAux_spent t x r2 ht]
  | succ b ih =>
    intro l
    rcases l with _ | ⟨t, r⟩
    · simp [decodeAux_nil]
    · by_cases ht : t = 0
      · subst ht
        simp [decodeAux_marker]
      · rcases r with _ | ⟨x, r2⟩
        · simp [decodeAux_half (b + 1) t ht]
        · rw [decodeAux_step b t x r2 ht]
          simp only [List.length_cons]
          have := ih r2
          omega

theorem writeInto_nil (B : List Nat) : writeInto B [] = B := by
  simp [writeInto]

theorem writeInto_take (B d : List Nat) (h : d.length ≤ B.length) :
    (writeInto B d).take d.length = d := by
  unfold writeInto
  rw [List.take_of_length_le h]
  rw [List.take_append_of_le_length (le_refl d.length)]
  exact List.take_length d

theorem encBytes_nil : encBytes [] = [] := rfl

theorem encBytes_cons (a : Nat) (l : List Nat) :
    encBytes (a :: l) = 1 :: a :: encBytes l := rfl

theorem encBytes_length (l : List Nat) : (encBytes l).length = 2 * l.length := by
  induction l with
  | nil => rfl
  | cons a l ih =>
    rw [encBytes_cons]
    simp only [List.length_cons, ih]
    omega

theorem encBytes_append (l1 l2 : List Nat) :
    encBytes (l1 ++ l2) = encBytes l1 ++ encBytes l2 := by
  simp [encBytes]

theorem encBytes_take (l : List Nat) (k : Nat) :
    (encBytes l).take (2 * k) = encBytes (l.take k) := by
  induction k generalizing l with
  | zero => simp [encBytes_nil]
  | succ k ih =>
    rcases l with _ | ⟨a, l'⟩
    · simp [encBytes_nil]
    · rw [encBytes_cons]
      have h2 : 2 * (k + 1) = (2 * k) + 1 + 1 := by omega
      rw [h2]
      simp only [List.take_succ_cons]
      rw [ih l']
      rfl

theorem encBytes_drop (l : List Nat) (k : Nat) :
    (encBytes l).drop (2 * k) = encBytes (l.drop k) := by
  induction k generalizing l with
  | zero => simp
  | succ k ih =>
    rcases l with _ | ⟨a, l'⟩
    · simp [encBytes_nil]
    · rw [encBytes_cons]
      have h2 : 2 * (k + 1) = (2 * k) + 1 + 1 := by omega
      rw [h2]
      simp only [List.drop_succ_cons]
      rw [ih l']

/-- Decoding the framing of u followed by tail decodes all of u and then
continues on tail with the remaining budget. -/
theorem decodeAux_enc (u : List Nat) (b : Nat) (tail : List Nat)
    (h : u.length ≤ b) :
    decodeAux b (encBytes u ++ tail)
      = (u ++ (decodeAux (b - u.length) tail).1,
         (decodeAux (b - u.length) tail).2.1,
         (decodeAux (b - u.length) tail).2.2) := by
  induction u generalizing b with
  | nil =>
    simp [encBytes_nil]
  | cons a u' ih =>
    rcases b with _ | b'
    · simp at h
    · rw [encBytes_cons]
      have hstep : decodeAux (b' + 1) (1 :: a :: (encBytes u' ++ tail))
          = (a :: (decodeAux b' (encBytes u' ++ tail)).1,
             (decodeAux b' (encBytes u' ++ tail)).2.1,
             (decodeAux b' (encBytes u' ++ tail)).2.2) :=
        decodeAux_step b' 1 a (encBytes u' ++ tail) (by omega)
      have hlen : u'.length ≤ b' := by
        simp only [List.length_cons] at h
        omega
      have hsub : b' + 1 - (a :: u').length = b' - u'.length := by
        simp only [List.length_cons]
        omega
      rw [List.cons_append, List.cons_append, hstep, ih b' hlen, hsub]
      simp

/-- Under the no-panic hypotheses the drive loop never crashes and never
returns a count above the destination bound. -/
theorem innerLoop_no_crash (f : C → List Nat → Bool → C × Int × List Nat)
    (tin tout : C → Nat) (src : σ → List Nat → Except ε (σ × List Nat × Nat)) (D : Nat)
    (hsrc : ∀ st b r' d n, src st b = Except.ok (r', d, n) → n ≤ b.length)
    (hmi : ∀ c input eof, tin c ≤ tin (f c input eof).1)
    (hmo : ∀ c input eof, tout c ≤ tout (f c input eof).1)
    (hlen : ∀ c input eof, tin (f c input eof).1 - tin c ≤ input.length)
    (hout : ∀ c input eof, tout (f c input eof).1 - tout c ≤ D) :
    ∀ (fuel : Nat) (s : Inner σ C), s.pos ≤ s.cap → s.cap ≤ s.buf.length →
      innerLoop f tin tout src fuel s ≠ ReadResult.crash
      ∧ (∀ n w s', innerLoop f tin tout src fuel s = ReadResult.ok n w s' → n ≤ D) := by
  intro fuel
  induction fuel with
  | zero =>
    intro s h1 h2
    constructor
    · simp [innerLoop]
    · intro n w s' h
      simp [innerLoop] at h
  | succ fuel ih =>
    intro s h1 h2
    rw [innerLoop_succ]
    rcases innerIter_good f tin tout src hsrc hmi hmo h1 h2 with ⟨e, _, hit⟩
      | ⟨s1, eof, hre, hp1, hc1, hit⟩
    · rw [hit]
      constructor
      · simp
      · intro n w s' h
        simp at h
    · rw [hit]
      rcases hfc : f s1.stream ((s1.buf.take s1.cap).drop s1.pos) eof with ⟨c2, rc, w0⟩
      have hl2 : tin c2 - tin s1.stream ≤ s1.cap - s1.pos := by
        have hx := hlen s1.stream ((s1.buf.take s1.cap).drop s1.pos) eof
        rw [hfc] at hx
        simp only at hx
        rw [slice_length hc1] at hx
        exact hx
      have hps := postState_inv tin tout src hre hp1 hc1 c2 rc hl2
      simp only [iterSpec, hfc, iterDecide]
      split_ifs with hA hB
      · constructor
        · simp
        · intro n w s' h
          simp at h
      · exact ih (postState tin tout s1 c2 rc) hps.1 hps.2.1
      · constructor
        · simp
        · intro n w s' h
          simp only [ReadResult.ok.injEq] at h
          have hb := hout s1.stream ((s1.buf.take s1.cap).drop s1.pos) eof
          rw [hfc] at hb
          simp only at hb
          omega

/-- The working form of one non-short-circuited pull step: under the side
conditions of the characterization, the read either recurses into the loop
on the postState (produced = 0 off eof) or returns Ok(produced). -/
theorem innerRead_step_eq
    (f : C → List Nat → Bool → C × Int × List Nat) (tin tout : C → Nat)
    (src : σ → List Nat → Except ε (σ × List Nat × Nat)) (fuel : Nat)
    {s s1 : Inner σ C} {eof : Bool} {c2 : C} {rc : Int} {w : List Nat}
    (hdone : s.done = false)
    (hrefill : refill src s = Except.ok (s1, eof))
    (hpos : s1.pos ≤ s1.cap) (hcap : s1.cap ≤ s1.buf.length)
    (hf : f s1.stream ((s1.buf.take s1.cap).drop s1.pos) eof = (c2, rc, w))
    (hmi : tin s1.stream ≤ tin c2) (hmo : tout s1.stream ≤ tout c2)
    (hok : ¬ (rc < 0 ∧ rc ≠ BZ_OUTBUFF_FULL)) :
    innerRead f tin tout src (fuel + 1) s =
      (if tout c2 - tout s1.stream = 0 ∧ eof = false then
        innerLoop f tin tout src fuel (postState tin tout s1 c2 rc)
      else ReadResult.ok (tout c2 - tout s1.stream) w (postState tin tout s1 c2 rc)) := by
  have hiter : innerIter f tin tout src s = iterSpec f tin tout s1 eof :=
    innerIter_eq_iterSpec f tin tout src hrefill hpos hcap
      (by rw [hf]; exact hmi) (by rw [hf]; exact hmo)
  rw [iterSpec, hf] at hiter
  simp only [iterDecide, if_neg hok] at hiter
  rw [innerRead_not_done f tin tout src (fuel + 1) hdone, innerLoop_succ, hiter]
  by_cases h3 : tout c2 - tout s1.stream = 0 ∧ eof = false
  · rw [if_pos h3, if_pos h3]
  · rw [if_neg h3, if_neg h3]

/-- One compressor pull over a non-exhausted source: the refill stages
min(remaining, scratch) bytes, the modelled compressor consumes them all,
and the call returns their framing in one iteration. -/
theorem compRead_step (t u p : Nat) (rest B : List Nat) (hrest : rest ≠ [])
    (hB0 : 0 < B.length) (hd : 2 * B.length < COMPDST) :
    compRead mCompress MComp.tin MComp.tout listSrc COMPDST 2
      (Inner.mk (MComp.mk t u [] false) rest B p p false)
    = ReadResult.ok (2 * min rest.length B.length)
        (encBytes (rest.take (min rest.length B.length)))
        (Inner.mk
          (MComp.mk (t + min rest.length B.length)
            (u + 2 * min rest.length B.length) [] false)
          (rest.drop (min rest.length B.length))
          (writeInto B (rest.take (min rest.length B.length)))
          (min rest.length B.length) (min rest.length B.length) false) := by
  have hn0 : 0 < min rest.length B.length := by
    have h1 : 0 < rest.length := List.length_pos.mpr hrest
    omega
  set n := min rest.length B.length with hn
  have hsrceq : listSrc rest B = Except.ok (rest.drop n, rest.take n, n) := rfl
  have hre0 := refill_one_read (C := MComp) listSrc
      (s := Inner.mk (MComp.mk t u [] false) rest B p p false) rfl hsrceq
  rw [decide_eq_false (by omega : ¬ (n = 0))] at hre0
  have htl : (rest.take n).length = n := by
    rw [List.length_take]
    omega
  have hcap2 : n ≤ (writeInto B (rest.take n)).length := by
    rw [writeInto_length]
    omega
  have hinput : ((writeInto B (rest.take n)).take n).drop 0 = rest.take n := by
    rw [List.drop_zero]
    have hw := writeInto_take B (rest.take n) (by rw [htl]; omega)
    rw [htl] at hw
    exact hw
  have hql : (encBytes (rest.take n)).length = 2 * n := by
    rw [encBytes_length, htl]
  have htake : (encBytes (rest.take n)).take COMPDST = encBytes (rest.take n) :=
    List.take_of_length_le (by rw [hql]; omega)
  have hdropq : (encBytes (rest.take n)).drop COMPDST = [] :=
    List.drop_eq_nil_of_le (by rw [hql]; omega)
  have hfc : compClosure mCompress COMPDST (MComp.mk t u [] false) (rest.take n) false
      = (MComp.mk (t + n) (u + 2 * n) [] false, 1, encBytes (rest.take n)) := by
    unfold compClosure mCompress
    simp [htake, hdropq, hql, htl]
  have hf2 : compClosure mCompress COMPDST (MComp.mk t u [] false)
      (((writeInto B (rest.take n)).take n).drop 0) false
      = (MComp.mk (t + n) (u + 2 * n) [] false, 1, encBytes (rest.take n)) := by
    rw [hinput]
    exact hfc
  have hstep := @innerRead_step_eq (List Nat) MComp Unit
    (compClosure mCompress COMPDST) MComp.tin MComp.tout listSrc 1
    (Inner.mk (MComp.mk t u [] false) rest B p p false)
    (Inner.mk (MComp.mk t u [] false) (rest.drop n)
      (writeInto B (rest.take n)) n 0 false)
    false (MComp.mk (t + n) (u + 2 * n) [] false) 1
    (encBytes (rest.take n))
    rfl hre0 (Nat.zero_le n) hcap2 hf2 (Nat.le_add_right t n) (Nat.le_add_right u _)
    (by decide)
  unfold compRead
  rw [show (2 : Nat) = 1 + 1 from rfl, hstep]
  have hprod : MComp.tout (MComp.mk (t + n) (u + 2 * n) [] false)
      - MComp.tout (MComp.mk t u [] false) = 2 * n := by
    show u + 2 * n - u = 2 * n
    omega
  rw [hprod]
  rw [if_neg (by intro hcc; exact absurd hcc.1 (by omega))]
  have hcons : MComp.tin (MComp.mk (t + n) (u + 2 * n) [] false)
      - MComp.tin (MComp.mk t u [] false) = n := by
    show t + n - t = n
    omega
  unfold postState
  rw [hcons]
  simp [BZ_STREAM_END]

theorem compDrive_succ (k : Nat) (s : Inner (List Nat) MComp) (acc : List Nat) :
    compDrive (k + 1) s acc
      = (match compRead mCompress MComp.tin MComp.tout listSrc COMPDST 2 s with
         | ReadResult.ok n w s' =>
             if n = 0 then some acc else compDrive k s' (acc ++ w.take n)
         | _ => none) := rfl

theorem decompDrive_succ (k : Nat) (s : Inner (List Nat) MDecomp) (acc : List Nat) :
    decompDrive (k + 1) s acc
      = (match decompRead mDecompress MDecomp.tin MDecomp.tout listSrc CAPACITY 2 s with
         | ReadResult.ok n w s' =>
             if n = 0 then some acc else decompDrive k s' (acc ++ w.take n)
         | _ => none) := rfl

/-- The compressor pull at source exhaustion: the refill returns 0, the
codec is invoked with Finish on the empty slice, and the emitted end marker
is returned with the finished flag set. -/
theorem compRead_eof_step (t u p : Nat) (B : List Nat) :
    compRead mCompress MComp.tin MComp.tout listSrc COMPDST 2
      (Inner.mk (MComp.mk t u [] false) [] B p p false)
    = ReadResult.ok 1 [0]
        (Inner.mk (MComp.mk t (u + 1) [] true) [] B 0 0 true) := by
  have hsrceq : listSrc [] B = Except.ok (([] : List Nat), ([] : List Nat), 0) := by
    simp [listSrc]
  have hre0 := refill_one_read (C := MComp) listSrc
      (s := Inner.mk (MComp.mk t u [] false) [] B p p false) rfl hsrceq
  rw [show (decide ((0 : Nat) = 0)) = true from rfl] at hre0
  rw [writeInto_nil] at hre0
  have hf2 : compClosure mCompress COMPDST (MComp.mk t u [] false)
      ((B.take 0).drop 0) true
      = (MComp.mk t (u + 1) [] true, BZ_STREAM_END, [0]) := by
    rw [List.take_zero, List.drop_zero]
    unfold compClosure mCompress
    simp [COMPDST, CAPACITY, encBytes_nil, BZ_STREAM_END]
  have hstep := @innerRead_step_eq (List Nat) MComp Unit
    (compClosure mCompress COMPDST) MComp.tin MComp.tout listSrc 1
    (Inner.mk (MComp.mk t u [] false) [] B p p false)
    (Inner.mk (MComp.mk t u [] false) [] B 0 0 false)
    true (MComp.mk t (u + 1) [] true) BZ_STREAM_END
    [0]
    rfl hre0 (Nat.le_refl 0) (Nat.zero_le _) hf2 (Nat.le_refl t) (Nat.le_add_right u 1)
    (by decide)
  unfold compRead
  rw [show (2 : Nat) = 1 + 1 from rfl, hstep]
  have hprod : MComp.tout (MComp.mk t (u + 1) [] true)
      - MComp.tout (MComp.mk t u [] false) = 1 := by
    show u + 1 - u = 1
    omega
  rw [hprod]
  rw [if_neg (by intro hcc; exact absurd hcc.2 (by simp))]
  have hcons : MComp.tin (MComp.mk t (u + 1) [] true)
      - MComp.tin (MComp.mk t u [] false) = 0 := by
    show t - t = 0
    omega
  unfold postState
  rw [hcons]
  simp [BZ_STREAM_END]

/-- One decompressor pull while at least a whole scratch of tokens remains:
the refill stages one full scratch of tokens and the call decodes them all,
returning half a scratch of original bytes. -/
theorem decompRead_chunk (t u p : Nat) (rest B : List Nat) (hB : B.length = CAPACITY)
    (hbig : CAPACITY ≤ 2 * rest.length) :
    decompRead mDecompress MDecomp.tin MDecomp.tout listSrc CAPACITY 2
      (Inner.mk (MDecomp.mk t u [] false) (encBytes rest ++ [0]) B p p false)
    = ReadResult.ok HALFCAP (rest.take HALFCAP)
        (Inner.mk (MDecomp.mk (t + CAPACITY) (u + HALFCAP) [] false)
          (encBytes (rest.drop HALFCAP) ++ [0])
          (writeInto B (encBytes (rest.take HALFCAP)))
          CAPACITY CAPACITY false) := by
  have h1 : CAPACITY = 2 * HALFCAP := by decide
  have hsl : (encBytes rest ++ [0]).length = 2 * rest.length + 1 := by
    simp [encBytes_length]
  have hmin : min (encBytes rest ++ [0]).length B.length = CAPACITY := by
    rw [hsl, hB]
    omega
  have htk : (encBytes rest ++ [0]).take CAPACITY = encBytes (rest.take HALFCAP) := by
    rw [List.take_append_of_le_length (by rw [encBytes_length]; omega)]
    rw [h1, encBytes_take]
  have hdp : (encBytes rest ++ [0]).drop CAPACITY
      = encBytes (rest.drop HALFCAP) ++ [0] := by
    rw [List.drop_append_of_le_length (by rw [encBytes_length]; omega)]
    rw [h1, encBytes_drop]
  have hsrceq : listSrc (encBytes rest ++ [0]) B
      = Except.ok (encBytes (rest.drop HALFCAP) ++ [0],
          encBytes (rest.take HALFCAP), CAPACITY) := by
    unfold listSrc
    rw [hmin, htk, hdp]
  have hre0 := refill_one_read (C := MDecomp) listSrc
      (s := Inner.mk (MDecomp.mk t u [] false) (encBytes rest ++ [0]) B p p false)
      rfl hsrceq
  rw [decide_eq_false (by decide : ¬ (CAPACITY = 0))] at hre0
  have htl : (rest.take HALFCAP).length = HALFCAP := by
    rw [List.length_take]
    omega
  have hdl : (encBytes (rest.take HALFCAP)).length = CAPACITY := by
    rw [encBytes_length, htl, h1]
  have hcap2 : CAPACITY ≤ (writeInto B (encBytes (rest.take HALFCAP))).length := by
    rw [writeInto_length, hB]
  have hinput : ((writeInto B (encBytes (rest.take HALFCAP))).take CAPACITY).drop 0
      = encBytes (rest.take HALFCAP) := by
    rw [List.drop_zero]
    have hw := writeInto_take B (encBytes (rest.take HALFCAP)) (by rw [hdl, hB])
    rw [hdl] at hw
    exact hw
  have hdec : decodeAux CAPACITY (encBytes (rest.take HALFCAP))
      = (rest.take HALFCAP, [], false) := by
    conv_lhs => rw [← List.append_nil (encBytes (rest.take HALFCAP))]
    rw [decodeAux_enc (rest.take HALFCAP) CAPACITY [] (by rw [htl]; omega)]
    rw [decodeAux_nil]
    simp
  have hfc : decompClosure mDecompress CAPACITY (MDecomp.mk t u [] false)
      (encBytes (rest.take HALFCAP)) false
      = (MDecomp.mk (t + CAPACITY) (u + HALFCAP) [] false, 0, rest.take HALFCAP) := by
    unfold decompClosure mDecompress
    simp [hdec, hdl, htl]
  have hf2 : decompClosure mDecompress CAPACITY (MDecomp.mk t u [] false)
      (((writeInto B (encBytes (rest.take HALFCAP))).take CAPACITY).drop 0) false
      = (MDecomp.mk (t + CAPACITY) (u + HALFCAP) [] false, 0, rest.take HALFCAP) := by
    rw [hinput]
    exact hfc
  have hstep := @innerRead_step_eq (List Nat) MDecomp Unit
    (decompClosure mDecompress CAPACITY) MDecomp.tin MDecomp.tout listSrc 1
    (Inner.mk (MDecomp.mk t u [] false) (encBytes rest ++ [0]) B p p false)
    (Inner.mk (MDecomp.mk t u [] false) (encBytes (rest.drop HALFCAP) ++ [0])
      (writeInto B (encBytes (rest.take HALFCAP))) CAPACITY 0 false)
    false (MDecomp.mk (t + CAPACITY) (u + HALFCAP) [] false) 0
    (rest.take HALFCAP)
    rfl hre0 (Nat.zero_le _) hcap2 hf2 (Nat.le_add_right t _) (Nat.le_add_right u _)
    (by decide)
  unfold decompRead
  rw [if_neg (by decide : ¬ (CAPACITY = 0))]
  rw [show (2 : Nat) = 1 + 1 from rfl, hstep]
  have hprod : MDecomp.tout (MDecomp.mk (t + CAPACITY) (u + HALFCAP) [] false)
      - MDecomp.tout (MDecomp.mk t u [] false) = HALFCAP := by
    show u + HALFCAP - u = HALFCAP
    omega
  rw [hprod]
  rw [if_neg (by intro hcc; exact absurd hcc.1 (by decide))]
  have hcons : MDecomp.tin (MDecomp.mk (t + CAPACITY) (u + HALFCAP) [] false)
      - MDecomp.tin (MDecomp.mk t u [] false) = CAPACITY := by
    show t + CAPACITY - t = CAPACITY
    omega
  unfold postState
  rw [hcons]
  simp [BZ_STREAM_END]

/-- The final decompressor pull when the remaining tokens and the end marker
fit in one refill: everything left is decoded, StreamEnd is reported with
output, and the finished flag is set. -/
theorem decompRead_last (t u p : Nat) (rest B : List Nat) (hB : B.length = CAPACITY)
    (hsmall : 2 * rest.length < CAPACITY) (hne : rest ≠ []) :
    decompRead mDecompress MDecomp.tin MDecomp.tout listSrc CAPACITY 2
      (Inner.mk (MDecomp.mk t u [] false) (encBytes rest ++ [0]) B p p false)
    = ReadResult.ok rest.length rest
        (Inner.mk (MDecomp.mk (t + (2 * rest.length + 1)) (u + rest.length) [0] true)
          [] (writeInto B (encBytes rest ++ [0])) (2 * rest.length + 1)
          (2 * rest.length + 1) true) := by
  have hlen0 : 0 < rest.length := List.length_pos.mpr hne
  have hsl : (encBytes rest ++ [0]).length = 2 * rest.length + 1 := by
    simp [encBytes_length]
  have hmin : min (encBytes rest ++ [0]).length B.length = 2 * rest.length + 1 := by
    rw [hsl, hB]
    omega
  have htk : (encBytes rest ++ [0]).take (2 * rest.length + 1) = encBytes rest ++ [0] :=
    List.take_of_length_le (by rw [hsl])
  have hdp : (encBytes rest ++ [0]).drop (2 * rest.length + 1) = [] :=
    List.drop_eq_nil_of_le (by rw [hsl])
  have hsrceq : listSrc (encBytes rest ++ [0]) B
      = Except.ok (([] : List Nat), encBytes rest ++ [0], 2 * rest.length + 1) := by
    unfold listSrc
    rw [hmin, htk, hdp]
  have hre0 := refill_one_read (C := MDecomp) listSrc
      (s := Inner.mk (MDecomp.mk t u [] false) (encBytes rest ++ [0]) B p p false)
      rfl hsrceq
  rw [decide_eq_false (by omega : ¬ (2 * rest.length + 1 = 0))] at hre0
  have hcap2 : 2 * rest.length + 1
      ≤ (writeInto B (encBytes rest ++ [0])).length := by
    rw [writeInto_length, hB]
    omega
  have hinput : ((writeInto B (encBytes rest ++ [0])).take (2 * rest.length + 1)).drop 0
      = encBytes rest ++ [0] := by
    rw [List.drop_zero]
    have hw := writeInto_take B (encBytes rest ++ [0]) (by rw [hsl, hB]; omega)
    rw [hsl] at hw
    exact hw
  have hdec : decodeAux CAPACITY (encBytes rest ++ [0]) = (rest, [0], true) := by
    rw [decodeAux_enc rest CAPACITY [0] (by omega)]
    rw [decodeAux_marker]
    simp
  have hfc : decompClosure mDecompress CAPACITY (MDecomp.mk t u [] false)
      (encBytes rest ++ [0]) false
      = (MDecomp.mk (t + (2 * rest.length + 1)) (u + rest.length) [0] true,
         BZ_STREAM_END, rest) := by
    unfold decompClosure mDecompress
    simp [hdec, hsl]
  have hf2 : decompClosure mDecompress CAPACITY (MDecomp.mk t u [] false)
      (((writeInto B (encBytes rest ++ [0])).take (2 * rest.length + 1)).drop 0) false
      = (MDecomp.mk (t + (2 * rest.length + 1)) (u + rest.length) [0] true,
         BZ_STREAM_END, rest) := by
    rw [hinput]
    exact hfc
  have hstep := @innerRead_step_eq (List Nat) MDecomp Unit
    (decompClosure mDecompress CAPACITY) MDecomp.tin MDecomp.tout listSrc 1
    (Inner.mk (MDecomp.mk t u [] false) (encBytes rest ++ [0]) B p p false)
    (Inner.mk (MDecomp.mk t u [] false) []
      (writeInto B (encBytes rest ++ [0])) (2 * rest.length + 1) 0 false)
    false
    (MDecomp.mk (t + (2 * rest.length + 1)) (u + rest.length) [0] true)
    BZ_STREAM_END rest
    rfl hre0 (Nat.zero_le _) hcap2 hf2 (Nat.le_add_right t _) (Nat.le_add_right u _)
    (by decide)
  unfold decompRead
  rw [if_neg (by decide : ¬ (CAPACITY = 0))]
  rw [show (2 : Nat) = 1 + 1 from rfl, hstep]
  have hprod : MDecomp.tout
      (MDecomp.mk (t + (2 * rest.length + 1)) (u + rest.length) [0] true)
      - MDecomp.tout (MDecomp.mk t u [] false) = rest.length := by
    show u + rest.length - u = rest.length
    omega
  rw [hprod]
  rw [if_neg (by intro hcc; exact absurd hcc.1 (by omega))]
  have hcons : MDecomp.tin
      (MDecomp.mk (t + (2 * rest.length + 1)) (u + rest.length) [0] true)
      - MDecomp.tin (MDecomp.mk t u [] false) = 2 * rest.length + 1 := by
    show t + (2 * rest.length + 1) - t = 2 * rest.length + 1
    omega
  unfold postState
  rw [hcons, hprod]
  simp [BZ_STREAM_END, hlen0]

/-- The decompressor pull when only the end marker remains: the first
iteration consumes the marker with zero output and loops, the second sees
source eof and returns Ok(0), leaving the finished flag unset (StreamEnd
with no output never sets it). -/
theorem decompRead_empty (t u p : Nat) (B : List Nat) (hB : B.length = CAPACITY) :
    decompRead mDecompress MDecomp.tin MDecomp.tout listSrc CAPACITY 2
      (Inner.mk (MDecomp.mk t u [] false) [0] B p p false)
    = ReadResult.ok 0 []
        (Inner.mk (MDecomp.mk (t + 1) u [0] true) [] (writeInto B [0]) 0 0 false) := by
  have hsrceq : listSrc [0] B = Except.ok (([] : List Nat), [0], 1) := by
    unfold listSrc
    rw [hB]
    rfl
  have hre0 := refill_one_read (C := MDecomp) listSrc
      (s := Inner.mk (MDecomp.mk t u [] false) [0] B p p false) rfl hsrceq
  rw [decide_eq_false (by omega : ¬ ((1 : Nat) = 0))] at hre0
  have hcap2 : 1 ≤ (writeInto B [0]).length := by
    rw [writeInto_length, hB]
    decide
  have hinput : ((writeInto B [0]).take 1).drop 0 = [0] := by
    rw [List.drop_zero]
    exact writeInto_take B [0] (by rw [hB]; decide)
  have hfc1 : decompClosure mDecompress CAPACITY (MDecomp.mk t u [] false) [0] false
      = (MDecomp.mk (t + 1) u [0] true, BZ_STREAM_END, []) := by
    unfold decompClosure mDecompress
    simp [decodeAux_marker]
  have hf2 : decompClosure mDecompress CAPACITY (MDecomp.mk t u [] false)
      (((writeInto B [0]).take 1).drop 0) false
      = (MDecomp.mk (t + 1) u [0] true, BZ_STREAM_END, []) := by
    rw [hinput]
    exact hfc1
  have hstep1 := @innerRead_step_eq (List Nat) MDecomp Unit
    (decompClosure mDecompress CAPACITY) MDecomp.tin MDecomp.tout listSrc 1
    (Inner.mk (MDecomp.mk t u [] false) [0] B p p false)
    (Inner.mk (MDecomp.mk t u [] false) [] (writeInto B [0]) 1 0 false)
    false (MDecomp.mk (t + 1) u [0] true)
    BZ_STREAM_END []
    rfl hre0 (Nat.zero_le _) hcap2 hf2 (Nat.le_add_right t _) (Nat.le_refl u)
    (by decide)
  have hpost1 : postState MDecomp.tin MDecomp.tout
      (Inner.mk (MDecomp.mk t u [] false) ([] : List Nat) (writeInto B [0]) 1 0 false)
      (MDecomp.mk (t + 1) u [0] true) BZ_STREAM_END
      = Inner.mk (MDecomp.mk (t + 1) u [0] true) ([] : List Nat)
          (writeInto B [0]) 1 1 false := by
    have hcons : MDecomp.tin (MDecomp.mk (t + 1) u [0] true)
        - MDecomp.tin (MDecomp.mk t u [] false) = 1 := by
      show t + 1 - t = 1
      omega
    unfold postState
    rw [hcons]
    simp [BZ_STREAM_END]
  -- second iteration from the refilled-and-consumed state
  have hsrceq2 : listSrc [] (writeInto B [0]) = Except.ok (([] : List Nat), ([] : List Nat), 0) := by
    unfold listSrc
    simp
  have hre2 := refill_one_read (C := MDecomp) listSrc
      (s := Inner.mk (MDecomp.mk (t + 1) u [0] true) ([] : List Nat)
        (writeInto B [0]) 1 1 false)
      rfl hsrceq2
  rw [show (decide ((0 : Nat) = 0)) = true from rfl, writeInto_nil] at hre2
  have hfc3 : decompClosure mDecompress CAPACITY (MDecomp.mk (t + 1) u [0] true)
      (((writeInto B [0]).take 0).drop 0) true
      = (MDecomp.mk (t + 1) u [0] true, BZ_STREAM_END, []) := by
    rw [List.take_zero, List.drop_zero]
    unfold decompClosure mDecompress
    simp [decodeAux_marker]
  have hstep2 := @innerRead_step_eq (List Nat) MDecomp Unit
    (decompClosure mDecompress CAPACITY) MDecomp.tin MDecomp.tout listSrc 0
    (Inner.mk (MDecomp.mk (t + 1) u [0] true) ([] : List Nat)
      (writeInto B [0]) 1 1 false)
    (Inner.mk (MDecomp.mk (t + 1) u [0] true) ([] : List Nat)
      (writeInto B [0]) 0 0 false)
    true (MDecomp.mk (t + 1) u [0] true)
    BZ_STREAM_END []
    rfl hre2 (Nat.le_refl 0) (Nat.zero_le _) hfc3 (Nat.le_refl _) (Nat.le_refl u)
    (by decide)
  unfold decompRead
  rw [if_neg (by decide : ¬ (CAPACITY = 0))]
  rw [show (2 : Nat) = 1 + 1 from rfl, hstep1]
  rw [if_pos ⟨by show u - u = 0; omega, rfl⟩]
  rw [hpost1]
  rw [← innerRead_not_done (decompClosure mDecompress CAPACITY) MDecomp.tin
    MDecomp.tout listSrc 1 rfl]
  rw [show (1 : Nat) = 0 + 1 from rfl, hstep2]
  rw [if_neg (by intro hcc; exact absurd hcc.2 (by simp))]
  have hcons2 : MDecomp.tin (MDecomp.mk (t + 1) u [0] true)
      - MDecomp.tin (MDecomp.mk (t + 1) u [0] true) = 0 := by
    omega
  have hprod2 : MDecomp.tout (MDecomp.mk (t + 1) u [0] true)
      - MDecomp.tout (MDecomp.mk (t + 1) u [0] true) = 0 := by
    omega
  unfold postState
  rw [hcons2, hprod2]
  simp [BZ_STREAM_END]

/-- Driving the compressor to the end over an in-memory source accumulates
exactly the framing of the whole source followed by the end marker. -/
theorem compDrive_run :
    ∀ (k : Nat) (rest : List Nat) (t u p : Nat) (B : List Nat) (acc : List Nat),
      B.length = CAPACITY → rest.length + 2 ≤ k →
      compDrive k (Inner.mk (MComp.mk t u [] false) rest B p p false) acc
        = some (acc ++ encBytes rest ++ [0]) := by
  intro k
  induction k with
  | zero =>
    intro rest t u p B acc hB hk
    omega
  | succ k ih =>
    intro rest t u p B acc hB hk
    rcases rest with _ | ⟨x, rest'⟩
    · rw [compDrive_succ, compRead_eof_step t u p B]
      show (if (1 : Nat) = 0 then some acc
        else compDrive k (Inner.mk (MComp.mk t (u + 1) [] true) [] B 0 0 true)
          (acc ++ [0].take 1)) = some (acc ++ encBytes [] ++ [0])
      rw [if_neg (by omega)]
      rcases k with _ | k'
      · simp at hk
      · rw [compDrive_succ]
        have hdone : compRead mCompress MComp.tin MComp.tout listSrc COMPDST 2
            (Inner.mk (MComp.mk t (u + 1) [] true) [] B 0 0 true)
            = ReadResult.ok 0 []
                (Inner.mk (MComp.mk t (u + 1) [] true) [] B 0 0 true) :=
          innerRead_done (compClosure mCompress COMPDST) MComp.tin MComp.tout
            listSrc 2 rfl
        rw [hdone]
        show some (acc ++ [0].take 1) = some (acc ++ encBytes [] ++ [0])
        simp [encBytes_nil]
    · have hB0 : 0 < B.length := by
        rw [hB]
        decide
      have hdd : 2 * B.length < COMPDST := by
        rw [hB]
        decide
      rw [compDrive_succ, compRead_step t u p (x :: rest') B (by simp) hB0 hdd]
      set n := min (x :: rest').length B.length with hn
      have hn0 : 0 < n := by
        have : 0 < (x :: rest').length := by simp
        omega
      have hql : (encBytes ((x :: rest').take n)).length = 2 * n := by
        rw [encBytes_length, List.length_take]
        omega
      show (if 2 * n = 0 then some acc
        else compDrive k
          (Inner.mk (MComp.mk (t + n) (u + 2 * n) [] false) ((x :: rest').drop n)
            (writeInto B ((x :: rest').take n)) n n false)
          (acc ++ (encBytes ((x :: rest').take n)).take (2 * n)))
        = some (acc ++ encBytes (x :: rest') ++ [0])
      rw [if_neg (by omega)]
      rw [List.take_of_length_le (le_of_eq hql)]
      have hB2 : (writeInto B ((x :: rest').take n)).length = CAPACITY := by
        rw [writeInto_length, hB]
      have hk2 : ((x :: rest').drop n).length + 2 ≤ k := by
        rw [List.length_drop]
        simp only [List.length_cons] at hk ⊢
        omega
      rw [ih ((x :: rest').drop n) (t + n) (u + 2 * n) n
        (writeInto B ((x :: rest').take n)) (acc ++ encBytes ((x :: rest').take n))
        hB2 hk2]
      have hsplit : encBytes ((x :: rest').take n) ++ encBytes ((x :: rest').drop n)
          = encBytes (x :: rest') := by
        rw [← encBytes_append, List.take_append_drop]
      rw [← hsplit]
      simp [List.append_assoc]

/-- Driving the decompressor to the end over the framing of a byte string
followed by the end marker recovers exactly that byte string. -/
theorem decompDrive_run :
    ∀ (k : Nat) (rest : List Nat) (t u p : Nat) (B : List Nat) (acc : List Nat),
      B.length = CAPACITY → rest.length + 2 ≤ k →
      decompDrive k
        (Inner.mk (MDecomp.mk t u [] false) (encBytes rest ++ [0]) B p p false) acc
        = some (acc ++ rest) := by
  intro k
  induction k with
  | zero =>
    intro rest t u p B acc hB hk
    omega
  | succ k ih =>
    intro rest t u p B acc hB hk
    by_cases hbig : CAPACITY ≤ 2 * rest.length
    · have hhalf : (0 : Nat) < HALFCAP := by decide
      have h1 : CAPACITY = 2 * HALFCAP := by decide
      rw [decompDrive_succ, decompRead_chunk t u p rest B hB hbig]
      show (if HALFCAP = 0 then some acc
        else decompDrive k
          (Inner.mk (MDecomp.mk (t + CAPACITY) (u + HALFCAP) [] false)
            (encBytes (rest.drop HALFCAP) ++ [0])
            (writeInto B (encBytes (rest.take HALFCAP)))
            CAPACITY CAPACITY false)
          (acc ++ (rest.take HALFCAP).take HALFCAP)) = some (acc ++ rest)
      rw [if_neg (by omega)]
      have htt : (rest.take HALFCAP).take HALFCAP = rest.take HALFCAP :=
        List.take_of_length_le (by rw [List.length_take]; omega)
      rw [htt]
      have hB2 : (writeInto B (encBytes (rest.take HALFCAP))).length = CAPACITY := by
        rw [writeInto_length, hB]
      have hk2 : (rest.drop HALFCAP).length + 2 ≤ k := by
        rw [List.length_drop]
        omega
      rw [ih (rest.drop HALFCAP) (t + CAPACITY) (u + HALFCAP) CAPACITY
        (writeInto B (encBytes (rest.take HALFCAP))) (acc ++ rest.take HALFCAP)
        hB2 hk2]
      rw [List.append_assoc, List.take_append_drop]
    · by_cases hnil : rest = []
      · subst hnil
        rw [decompDrive_succ]
        have hsmall : encBytes ([] : List Nat) ++ [0] = [0] := rfl
        rw [hsmall, decompRead_empty t u p B hB]
        show (if (0 : Nat) = 0 then some acc else _) = some (acc ++ [])
        rw [if_pos rfl]
        simp
      · have hlen0 : 0 < rest.length := List.length_pos.mpr hnil
        rw [decompDrive_succ, decompRead_last t u p rest B hB (by omega) hnil]
        show (if rest.length = 0 then some acc
          else decompDrive k
            (Inner.mk (MDecomp.mk (t + (2 * rest.length + 1)) (u + rest.length) [0] true)
              [] (writeInto B (encBytes rest ++ [0])) (2 * rest.length + 1)
              (2 * rest.length + 1) true)
            (acc ++ rest.take rest.length)) = some (acc ++ rest)
        rw [if_neg (by omega)]
        rw [List.take_length]
        rcases k with _ | k'
        · omega
        · rw [decompDrive_succ]
          have hdone : decompRead mDecompress MDecomp.tin MDecomp.tout listSrc
              CAPACITY 2
              (Inner.mk (MDecomp.mk (t + (2 * rest.length + 1)) (u + rest.length)
                [0] true) [] (writeInto B (encBytes rest ++ [0]))
                (2 * rest.length + 1) (2 * rest.length + 1) true)
              = ReadResult.ok 0 []
                (Inner.mk (MDecomp.mk (t + (2 * rest.length + 1)) (u + rest.length)
                  [0] true) [] (writeInto B (encBytes rest ++ [0]))
                  (2 * rest.length + 1) (2 * rest.length + 1) true) := by
            unfold decompRead
            rw [if_neg (by decide : ¬ (CAPACITY = 0))]
            exact innerRead_done _ MDecomp.tin MDecomp.tout listSrc 2 rfl
          rw [hdone]
          rfl

/-!
## The claims
-/

/-- C1: a pull call that is not short-circuited by the finished flag works in
iterations: each iteration snapshots total_in / total_out around a single
codec call, computes consumed and produced as the counter deltas of that
call, advances the cursor by exactly consumed (the postState), loops back to
refill exactly when produced = 0 and the source is not at eof, and in every
other non-error case returns Ok(produced). -/
theorem c1_iteration_contract
    (f : C → List Nat → Bool → C × Int × List Nat) (tin tout : C → Nat)
    (src : σ → List Nat → Except ε (σ × List Nat × Nat)) (fuel : Nat)
    {s s1 : Inner σ C} {eof : Bool} {c2 : C} {rc : Int} {w : List Nat}
    (hdone : s.done = false)
    (hrefill : refill src s = Except.ok (s1, eof))
    (hpos : s1.pos ≤ s1.cap) (hcap : s1.cap ≤ s1.buf.length)
    (hf : f s1.stream ((s1.buf.take s1.cap).drop s1.pos) eof = (c2, rc, w))
    (hmi : tin s1.stream ≤ tin c2) (hmo : tout s1.stream ≤ tout c2)
    (hok : ¬ (rc < 0 ∧ rc ≠ BZ_OUTBUFF_FULL)) :
    innerRead f tin tout src (fuel + 1) s =
      (if tout c2 - tout s1.stream = 0 ∧ eof = false then
        innerLoop f tin tout src fuel (postState tin tout s1 c2 rc)
      else ReadResult.ok (tout c2 - tout s1.stream) w (postState tin tout s1 c2 rc))
    ∧ (postState tin tout s1 c2 rc).pos = s1.pos + (tin c2 - tin s1.stream) :=
  ⟨innerRead_step_eq f tin tout src fuel hdone hrefill hpos hcap hf hmi hmo hok, rfl⟩

/-- A concrete run of the iteration contract: compressing the one-byte source
5 through the modelled codec with a 4-byte destination consumes the byte,
produces the two framed bytes in one iteration, and returns Ok(2). -/
theorem c1_iteration_contract_witness :
    innerRead (compClosure mCompress 4) MComp.tin MComp.tout listSrc 2
      (Inner.mk (MComp.mk 0 0 [] false) [5] [0, 0] 0 0 false) =
      ReadResult.ok 2 [1, 5]
        (Inner.mk (MComp.mk 1 2 [] false) [] [5, 0] 1 1 false) := by
  have h := @c1_iteration_contract (List Nat) MComp Unit (compClosure mCompress 4)
    MComp.tin MComp.tout listSrc 1
    (Inner.mk (MComp.mk 0 0 [] false) [5] [0, 0] 0 0 false)
    (Inner.mk (MComp.mk 0 0 [] false) [] [5, 0] 1 0 false)
    false (MComp.mk 1 2 [] false) 1 [1, 5]
    rfl rfl (by decide) (by decide) (by decide) (by decide) (by decide) (by decide)
  rw [h.1]
  decide

/-- C5: once the finished flag is set, every pull call, for any fuel and any
destination size, returns Ok(0) immediately with the state (codec, source,
buf, cap, pos, done) unchanged, for the generic drive loop and for both
reader wrappers. -/
theorem c5_finished_short_circuit
    (f : C → List Nat → Bool → C × Int × List Nat)
    (compress : C → List Nat → Nat → Action → C × Int × List Nat)
    (decompress : C → List Nat → Nat → C × Int × List Nat)
    (tin tout : C → Nat) (src : σ → List Nat → Except ε (σ × List Nat × Nat))
    (fuel dstLen : Nat) {s : Inner σ C} (h : s.done = true) :
    innerRead f tin tout src fuel s = ReadResult.ok 0 [] s
    ∧ compRead compress tin tout src dstLen fuel s = ReadResult.ok 0 [] s
    ∧ decompRead decompress tin tout src dstLen fuel s = ReadResult.ok 0 [] s := by
  refine ⟨innerRead_done f tin tout src fuel h, innerRead_done _ tin tout src fuel h, ?_⟩
  unfold decompRead
  by_cases hd : dstLen = 0
  · rw [if_pos hd]
  · rw [if_neg hd]
    exact innerRead_done _ tin tout src fuel h

/-- A concrete run of the finished short-circuit: a finished decompressor
state is returned unchanged with Ok(0) by the drive loop and the reader. -/
theorem c5_finished_short_circuit_witness :
    innerRead (decompClosure mDecompress 7) MDecomp.tin MDecomp.tout listSrc 3
      (Inner.mk (MDecomp.mk 9 8 [0] true) [4, 4] [0, 0] 1 1 true) =
      ReadResult.ok 0 [] (Inner.mk (MDecomp.mk 9 8 [0] true) [4, 4] [0, 0] 1 1 true)
    ∧ decompRead mDecompress MDecomp.tin MDecomp.tout listSrc 7 3
      (Inner.mk (MDecomp.mk 9 8 [0] true) [4, 4] [0, 0] 1 1 true) =
      ReadResult.ok 0 [] (Inner.mk (MDecomp.mk 9 8 [0] true) [4, 4] [0, 0] 1 1 true) := by
  have h := c5_finished_short_circuit (decompClosure mDecompress 7)
    (fun c i d _ => mDecompress c i d) mDecompress MDecomp.tin MDecomp.tout listSrc 3 7
    (s := Inner.mk (MDecomp.mk 9 8 [0] true) [4, 4] [0, 0] 1 1 true) rfl
  exact ⟨h.1, h.2.2⟩

/-- C7: the compressor closure invokes the raw compress with the whole
destination (its length is passed through unchanged) and action Finish
exactly when the refill step of the iteration observed source eof, Run
otherwise; the decompressor closure ignores the eof flag entirely; and the
slice handed to the codec is exactly scratch[pos..cap]. -/
theorem c7_action_selection {D : Type v}
    (compress : C → List Nat → Nat → Action → C × Int × List Nat)
    (decompress : D → List Nat → Nat → D × Int × List Nat)
    (dstLen : Nat) (c : C) (input : List Nat) :
    compClosure compress dstLen c input true = compress c input dstLen Action.finish
    ∧ compClosure compress dstLen c input false = compress c input dstLen Action.run
    ∧ (∀ (d : D) (di : List Nat) (e1 e2 : Bool),
        decompClosure decompress dstLen d di e1
          = decompClosure decompress dstLen d di e2)
    ∧ (∀ (l : List Nat) (a b : Nat), a ≤ b → b ≤ l.length →
        sliceRange l a b = some ((l.take b).drop a)) :=
  ⟨rfl, rfl, fun _ _ _ _ => rfl, fun _ _ _ h1 h2 => sliceRange_eq_some h1 h2⟩

/-- A concrete run of the action selection: at eof the modelled compressor is
called with Finish and emits the end marker; off eof it is called with Run. -/
theorem c7_action_selection_witness :
    compClosure mCompress 3 (MComp.mk 0 0 [] false) [9] true
      = mCompress (MComp.mk 0 0 [] false) [9] 3 Action.finish
    ∧ sliceRange [7, 8, 9] 1 3 = some [8, 9] := by
  have h := c7_action_selection mCompress mDecompress 3 (MComp.mk 0 0 [] false) [9]
  refine ⟨h.1, ?_⟩
  rw [h.2.2.2 [7, 8, 9] 1 3 (by decide) (by decide)]
  decide

/-- C4 as stated is false for the compressor: pulling it with a zero-length
destination does not leave the source untouched.  Concretely, over the
one-byte source 7 the zero-length pull returns Ok(0) only after entering the
drive loop and consuming the byte: the final source state is the empty list,
not the original one-byte list, so the pull neither avoided the drive loop
nor left the source unconsumed. -/
theorem c4_zero_length_counterexample :
    srcOf (compRead mCompress MComp.tin MComp.tout listSrc 0 3 c4wStart) = some []
    ∧ ¬ (srcOf (compRead mCompress MComp.tin MComp.tout listSrc 0 3 c4wStart)
          = some [7])
    ∧ ¬ (compRead mCompress MComp.tin MComp.tout listSrc 0 3 c4wStart
          = ReadResult.ok 0 [] c4wStart) := by
  refine ⟨by decide, by decide, by decide⟩

/-- C4 (amended): only the decompressor special-cases a zero-length
destination: in every state and for every fuel it returns Ok(0) immediately
with the state untouched, before entering the drive loop; the compressor has
no such guard, and its zero-length pull enters the drive loop and can
consume source bytes, as the concrete run over the one-byte source 7 shows. -/
theorem c4_zero_length_guard
    (decompress : C → List Nat → Nat → C × Int × List Nat)
    (tin tout : C → Nat) (src : σ → List Nat → Except ε (σ × List Nat × Nat))
    (fuel : Nat) (s : Inner σ C) :
    decompRead decompress tin tout src 0 fuel s = ReadResult.ok 0 [] s
    ∧ srcOf (compRead mCompress MComp.tin MComp.tout listSrc 0 3 c4wStart) = some [] := by
  constructor
  · simp [decompRead]
  · decide

/-- C6: the adapter invariant cursor ≤ filled ≤ capacity holds in the
constructed state, whose scratch is exactly CAPACITY bytes, and is preserved
by every pull call, which also never changes the scratch length; the scratch
is refilled only when cursor = filled, and then by exactly one source-level
read whose count becomes cap, with the cursor reset to 0 and count 0
recorded as eof; and the done flag is monotonic, never reset by a pull. -/
theorem c6_state_invariants (f : C → List Nat → Bool → C × Int × List Nat)
    (tin tout : C → Nat) (src : σ → List Nat → Except ε (σ × List Nat × Nat))
    (hlen : ∀ c input eof, tin (f c input eof).1 - tin c ≤ input.length) :
    (∀ (c : C) (r : σ), (mkInner c r : Inner σ C).pos = 0
      ∧ (mkInner c r : Inner σ C).cap = 0
      ∧ (mkInner c r : Inner σ C).buf.length = CAPACITY
      ∧ (mkInner c r : Inner σ C).done = false)
    ∧ (∀ s : Inner σ C, s.pos ≠ s.cap → refill src s = Except.ok (s, false))
    ∧ (∀ (s : Inner σ C) (r' : σ) (d : List Nat) (n : Nat),
        s.pos = s.cap → src s.r s.buf = Except.ok (r', d, n) →
        refill src s = Except.ok
          ({ s with r := r', buf := writeInto s.buf d, cap := n, pos := 0 },
           decide (n = 0)))
    ∧ (∀ (fuel : Nat) (s s' : Inner σ C), s.pos ≤ s.cap → s.cap ≤ s.buf.length →
        stateOf (innerRead f tin tout src fuel s) = some s' →
        s'.pos ≤ s'.cap ∧ s'.cap ≤ s'.buf.length ∧ s'.buf.length = s.buf.length
          ∧ (s.done = true → s'.done = true)) := by
  refine ⟨?_, ?_, ?_, ?_⟩
  · intro c r
    exact ⟨rfl, rfl, by simp [mkInner], rfl⟩
  · intro s h
    exact refill_no_op src h
  · intro s r' d n hp hs
    exact refill_one_read src hp hs
  · intro fuel s s' h1 h2 h3
    unfold innerRead at h3
    by_cases hd : s.done
    · rw [if_pos hd] at h3
      simp only [stateOf, Option.some.injEq] at h3
      subst h3
      exact ⟨h1, h2, rfl, fun h => h⟩
    · rw [if_neg hd] at h3
      exact innerLoop_preserves f tin tout src hlen fuel s s' h1 h2 h3

/-- A concrete run of the invariant preservation: one pull of the modelled
decompressor over the source 1,5 with a 2-byte scratch ends in a state that
still satisfies cursor ≤ filled ≤ scratch length. -/
theorem c6_state_invariants_witness :
    stateOf (innerRead (decompClosure mDecompress 2) MDecomp.tin MDecomp.tout listSrc 1
        c6wStart) = some c6wEnd
    ∧ (c6wEnd.pos ≤ c6wEnd.cap ∧ c6wEnd.cap ≤ c6wEnd.buf.length
      ∧ c6wEnd.buf.length = c6wStart.buf.length
      ∧ (c6wStart.done = true → c6wEnd.done = true)) := by
  constructor
  · decide
  · exact (c6_state_invariants (decompClosure mDecompress 2) MDecomp.tin MDecomp.tout
      listSrc
      (by
        intro c input eof
        simp [decompClosure, mDecompress])).2.2.2 1 c6wStart c6wEnd
      (by decide) (by decide) (by decide)

/-- Every iteration that loops again strictly decreases the lexicographic
measure source-measure-then-unread-window, provided the source measure drops
on every successful non-empty read, the codec consumes at most the slice it
is shown, and the codec makes counter progress on every non-empty input. -/
theorem innerIter_again_measure (f : C → List Nat → Bool → C × Int × List Nat)
    (tin tout : C → Nat) (src : σ → List Nat → Except ε (σ × List Nat × Nat))
    (μ : σ → Nat)
    (hsrc : ∀ st b r' d n, src st b = Except.ok (r', d, n) → 0 < n → μ r' < μ st)
    (hlen : ∀ c input eof, tin (f c input eof).1 - tin c ≤ input.length)
    (hprog : ∀ c input eof, input ≠ [] →
      tin (f c input eof).1 ≠ tin c ∨ tout (f c input eof).1 ≠ tout c)
    {t t' : Inner σ C} (h : innerIter f tin tout src t = IterOut.again t') :
    μ t'.r * (t'.buf.length + 1) + (t'.cap - t'.pos)
      < μ t.r * (t.buf.length + 1) + (t.cap - t.pos) := by
  rcases innerIter_inversion f tin tout src t with hcr | ⟨e, _, hit⟩
    | ⟨s1, eof, hre, hp1, hc1, hmi1, hmo1, hit⟩
  · rw [h] at hcr
    exact absurd hcr (by simp)
  · rw [h] at hit
    exact absurd hit (by simp)
  · rw [h] at hit
    rcases hfc : f s1.stream ((s1.buf.take s1.cap).drop s1.pos) eof with ⟨c2, rc, w⟩
    rw [hfc] at hmi1 hmo1
    simp only at hmi1 hmo1
    simp only [iterSpec, hfc, iterDecide] at hit
    split_ifs at hit with hA hB
    · simp only [IterOut.again.injEq] at hit
      subst hit
      have hinput : ((s1.buf.take s1.cap).drop s1.pos).length = s1.cap - s1.pos :=
        slice_length hc1
      have hcon : tin c2 - tin s1.stream ≤ s1.cap - s1.pos := by
        have hx := hlen s1.stream ((s1.buf.take s1.cap).drop s1.pos) eof
        rw [hfc] at hx
        simp only at hx
        omega
      have htoeq : tout c2 = tout s1.stream := by omega
      have hprogress : 0 < s1.cap - s1.pos → 0 < tin c2 - tin s1.stream := by
        intro hwin
        have hne : (s1.buf.take s1.cap).drop s1.pos ≠ [] := by
          intro hnil
          rw [hnil] at hinput
          simp at hinput
          omega
        have hp := hprog s1.stream ((s1.buf.take s1.cap).drop s1.pos) eof hne
        rw [hfc] at hp
        simp only at hp
        rcases hp with hp | hp
        · omega
        · exact absurd htoeq hp
      by_cases hpc : t.pos = t.cap
      · have hre2 := hre
        unfold refill at hre2
        rw [if_pos hpc] at hre2
        rcases hs : src t.r t.buf with e | ⟨r', d, n⟩
        · rw [hs] at hre2
          exact absurd hre2 (by simp)
        · rw [hs] at hre2
          simp only [Except.ok.injEq, Prod.mk.injEq] at hre2
          rcases hre2 with ⟨hq, heq⟩
          have hn0 : 0 < n := by
            rcases hB with ⟨-, hBe⟩
            rw [← heq] at hBe
            have : ¬ n = 0 := by simpa using hBe
            omega
          have hμ : μ r' < μ t.r := hsrc t.r t.buf r' d n hs hn0
          rw [← hq] at hinput hcon hprogress ⊢
          simp only [postState] at *
          have hL : (writeInto t.buf d).length = t.buf.length := writeInto_length t.buf d
          have hnL : n ≤ (writeInto t.buf d).length := by
            rw [← hq] at hc1
            simpa using hc1
          have hsub : t.cap - t.pos = 0 := by omega
          rw [hsub]
          have step1 : μ r' * ((writeInto t.buf d).length + 1)
              + (n - (tin c2 - tin t.stream))
              < (μ r' + 1) * ((writeInto t.buf d).length + 1) := by
            have : n - (tin c2 - tin t.stream) ≤ (writeInto t.buf d).length :=
              le_trans (Nat.sub_le _ _) hnL
            nlinarith
          have step2 : (μ r' + 1) * ((writeInto t.buf d).length + 1)
              ≤ μ t.r * (t.buf.length + 1) := by
            rw [hL]
            exact Nat.mul_le_mul_right _ hμ
          omega
      · have hre2 := refill_no_op src (C := C) hpc
        rw [hre] at hre2
        simp only [Except.ok.injEq, Prod.mk.injEq] at hre2
        rcases hre2 with ⟨hq, -⟩
        subst hq
        simp only [postState]
        have hwin : 0 < s1.cap - s1.pos := by omega
        have hcpos := hprogress hwin
        have : s1.cap - (s1.pos + (tin c2 - tin s1.stream)) < s1.cap - s1.pos := by
          omega
        exact Nat.add_lt_add_left this _

/-- C2: every pull terminates: given a source that eventually reports
exhaustion (witnessed by a measure that drops on every successful non-empty
read) and a codec that makes input or output progress whenever it is shown a
non-empty slice, some fuel suffices for the drive loop to return; and a
zero-output iteration at source eof returns instead of looping. -/
theorem c2_termination (f : C → List Nat → Bool → C × Int × List Nat)
    (tin tout : C → Nat) (src : σ → List Nat → Except ε (σ × List Nat × Nat))
    (μ : σ → Nat)
    (hsrc : ∀ st b r' d n, src st b = Except.ok (r', d, n) → 0 < n → μ r' < μ st)
    (hlen : ∀ c input eof, tin (f c input eof).1 - tin c ≤ input.length)
    (hprog : ∀ c input eof, input ≠ [] →
      tin (f c input eof).1 ≠ tin c ∨ tout (f c input eof).1 ≠ tout c) :
    (∀ s : Inner σ C, ∃ fuel, isFuelOut (innerRead f tin tout src fuel s) = false)
    ∧ (∀ (s s1 t : Inner σ C), refill src s = Except.ok (s1, true) →
        innerIter f tin tout src s ≠ IterOut.again t) := by
  constructor
  · have main : ∀ (m : Nat) (t : Inner σ C),
        μ t.r * (t.buf.length + 1) + (t.cap - t.pos) < m →
        ∃ fuel, isFuelOut (innerLoop f tin tout src fuel t) = false := by
      intro m
      induction m with
      | zero =>
        intro t h
        exact absurd h (Nat.not_lt_zero _)
      | succ m ih =>
        intro t hm
        rcases hcase : innerIter f tin tout src t with t' | ⟨n, w, t'⟩ | ⟨e, t'⟩ | t' | _
        · have hlt := innerIter_again_measure f tin tout src μ hsrc hlen hprog hcase
          obtain ⟨fuel, hfu⟩ := ih t' (lt_of_lt_of_le hlt (Nat.lt_succ_iff.mp hm))
          refine ⟨fuel + 1, ?_⟩
          rw [innerLoop_succ, hcase]
          exact hfu
        · exact ⟨1, by rw [innerLoop_succ, hcase]; rfl⟩
        · exact ⟨1, by rw [innerLoop_succ, hcase]; rfl⟩
        · exact ⟨1, by rw [innerLoop_succ, hcase]; rfl⟩
        · exact ⟨1, by rw [innerLoop_succ, hcase]; rfl⟩
    intro s
    by_cases hd : s.done
    · exact ⟨1, by rw [innerRead_done f tin tout src 1 hd]; rfl⟩
    · obtain ⟨fuel, hfu⟩ := main (μ s.r * (s.buf.length + 1) + (s.cap - s.pos) + 1) s
        (Nat.lt_succ_self _)
      rw [Bool.not_eq_true] at hd
      exact ⟨fuel, by rw [innerRead_not_done f tin tout src fuel hd]; exact hfu⟩
  · intro s s1 t hre hcon
    rcases innerIter_inversion f tin tout src s with hcr | ⟨e, _, hit⟩
      | ⟨s1', eof', hre', hp1, hc1, hmi1, hmo1, hit⟩
    · rw [hcon] at hcr
      exact absurd hcr (by simp)
    · rw [hcon] at hit
      exact absurd hit (by simp)
    · have heq : s1' = s1 ∧ eof' = true := by
        rw [hre] at hre'
        simp only [Except.ok.injEq, Prod.mk.injEq] at hre'
        exact ⟨hre'.1.symm, hre'.2.symm⟩
      rw [hcon] at hit
      rcases hfc : f s1'.stream ((s1'.buf.take s1'.cap).drop s1'.pos) eof' with ⟨c2, rc, w⟩
      simp only [iterSpec, hfc, iterDecide] at hit
      split_ifs at hit with hA hB
      · rcases hB with ⟨-, hBe⟩
        rw [heq.2] at hBe
        exact absurd hBe (by simp)

/-- A concrete run of the termination theorem: pulling the modelled
decompressor over the source 1,7,0 halts within some fuel. -/
theorem c2_termination_witness :
    ∃ fuel, isFuelOut (innerRead (decompClosure mDecompress 2) MDecomp.tin MDecomp.tout
      listSrc fuel c2wStart) = false := by
  refine (c2_termination (decompClosure mDecompress 2) MDecomp.tin MDecomp.tout listSrc
    List.length ?_ ?_ ?_).1 c2wStart
  · intro st b r' d n h hn
    simp only [listSrc, Except.ok.injEq, Prod.mk.injEq] at h
    rcases h with ⟨h1, -, h3⟩
    subst h1
    simp only [List.length_drop]
    have hmin := Nat.min_le_left st.length b.length
    omega
  · intro c input eof
    simp [decompClosure, mDecompress]
  · intro c input eof hne
    left
    simp only [decompClosure, mDecompress]
    have hl : 0 < input.length := List.length_pos.mpr hne
    omega

/-- C8: for every byte sequence S — including length 0, lengths below the 32
KiB scratch capacity, and lengths above it (forcing multiple scratch refills
on both sides) — reading the compressor wrapping S to the end and then
reading the decompressor over the compressed bytes to the end reproduces S
exactly.  The codec pair is the spec-modelled StreamCodec instance. -/
theorem c8_round_trip (S : List Nat) :
    ∃ T, compDrive (S.length + 2) (compInit S) [] = some T
      ∧ decompDrive (S.length + 2) (decompInit T) [] = some S := by
  refine ⟨encBytes S ++ [0], ?_, ?_⟩
  · have h := compDrive_run (S.length + 2) S 0 0 0 (List.replicate CAPACITY 0) []
      (by simp) (le_refl _)
    unfold compInit mkInner
    simpa using h
  · have h := decompDrive_run (S.length + 2) S 0 0 0 (List.replicate CAPACITY 0) []
      (by simp) (le_refl _)
    unfold decompInit mkInner
    simpa using h

/-- C9: Inner::read never hits a modelled panic, under the preconditions
that every source read call returns a count at most the length of the
scratch slice it was handed, and that each codec call moves total_in forward
by at most the input slice length and total_out forward by at most the
destination bound D: then the slice buf[pos..cap], the cursor advance and
the counter-delta subtractions are all in bounds, and every returned count
is at most D.  The source-count precondition is load-bearing because cap is
stored unchecked from the source's return value. -/
theorem c9_no_panic (f : C → List Nat → Bool → C × Int × List Nat)
    (tin tout : C → Nat) (src : σ → List Nat → Except ε (σ × List Nat × Nat)) (D : Nat)
    (hsrc : ∀ st b r' d n, src st b = Except.ok (r', d, n) → n ≤ b.length)
    (hmi : ∀ c input eof, tin c ≤ tin (f c input eof).1)
    (hmo : ∀ c input eof, tout c ≤ tout (f c input eof).1)
    (hlen : ∀ c input eof, tin (f c input eof).1 - tin c ≤ input.length)
    (hout : ∀ c input eof, tout (f c input eof).1 - tout c ≤ D) :
    ∀ (fuel : Nat) (s : Inner σ C), s.pos ≤ s.cap → s.cap ≤ s.buf.length →
      innerRead f tin tout src fuel s ≠ ReadResult.crash
      ∧ (∀ n w s', innerRead f tin tout src fuel s = ReadResult.ok n w s' → n ≤ D) := by
  intro fuel s h1 h2
  unfold innerRead
  by_cases hd : s.done
  · rw [if_pos hd]
    constructor
    · simp
    · intro n w s' h
      simp only [ReadResult.ok.injEq] at h
      omega
  · rw [if_neg hd]
    exact innerLoop_no_crash f tin tout src D hsrc hmi hmo hlen hout fuel s h1 h2

/-- A concrete run of the no-panic theorem: one pull of the modelled
decompressor with a 3-byte destination over the source 1,9 does not crash. -/
theorem c9_no_panic_witness :
    innerRead (decompClosure mDecompress 3) MDecomp.tin MDecomp.tout listSrc 2 c9wStart
      ≠ ReadResult.crash := by
  refine (c9_no_panic (decompClosure mDecompress 3) MDecomp.tin MDecomp.tout listSrc 3
    ?_ ?_ ?_ ?_ ?_ 2 c9wStart (by decide) (by decide)).1
  · intro st b r' d n h
    simp only [listSrc, Except.ok.injEq, Prod.mk.injEq] at h
    omega
  · intro c input eof
    simp [decompClosure, mDecompress]
  · intro c input eof
    simp [decompClosure, mDecompress]
  · intro c input eof
    simp [decompClosure, mDecompress]
  · intro c input eof
    simp only [decompClosure, mDecompress]
    have := decodeAux_out_le 3 (c.pend ++ input)
    omega

/-- C3: status interpretation during a pull: StreamEnd with produced > 0
marks finished and returns; StreamEnd with produced = 0, OutputBufferFull,
and every other non-negative status continue (loop or return) without
marking finished; every remaining status yields the single generic
invalid-input result; and a source error raised by the refill step is
propagated verbatim to the caller with no recovery. -/
theorem c3_status_mapping
    (f : C → List Nat → Bool → C × Int × List Nat) (tin tout : C → Nat)
    (src : σ → List Nat → Except ε (σ × List Nat × Nat))
    {s s1 : Inner σ C} {eof : Bool} {c2 : C} {rc : Int} {w : List Nat}
    (hrefill : refill src s = Except.ok (s1, eof))
    (hpos : s1.pos ≤ s1.cap) (hcap : s1.cap ≤ s1.buf.length)
    (hf : f s1.stream ((s1.buf.take s1.cap).drop s1.pos) eof = (c2, rc, w))
    (hmi : tin s1.stream ≤ tin c2) (hmo : tout s1.stream ≤ tout c2) :
    (rc = BZ_STREAM_END ∧ 0 < tout c2 - tout s1.stream →
      innerIter f tin tout src s
        = IterOut.ret (tout c2 - tout s1.stream) w (postState tin tout s1 c2 rc)
      ∧ (postState tin tout s1 c2 rc).done = true)
    ∧ ((rc = BZ_STREAM_END ∧ tout c2 - tout s1.stream = 0) ∨ rc = BZ_OUTBUFF_FULL
        ∨ (0 ≤ rc ∧ ¬ (rc = BZ_STREAM_END ∧ 0 < tout c2 - tout s1.stream)) →
      (innerIter f tin tout src s = IterOut.again (postState tin tout s1 c2 rc)
        ∨ innerIter f tin tout src s
            = IterOut.ret (tout c2 - tout s1.stream) w (postState tin tout s1 c2 rc))
      ∧ (postState tin tout s1 c2 rc).done = s1.done)
    ∧ (rc < 0 ∧ rc ≠ BZ_OUTBUFF_FULL →
        innerIter f tin tout src s = IterOut.invalid (postState tin tout s1 c2 rc))
    ∧ (∀ (t : Inner σ C) (e : ε) (fuel : Nat), t.done = false → t.pos = t.cap →
        src t.r t.buf = Except.error e →
        innerRead f tin tout src (fuel + 1) t = ReadResult.ioError e t) := by
  have hiter : innerIter f tin tout src s = iterSpec f tin tout s1 eof :=
    innerIter_eq_iterSpec f tin tout src hrefill hpos hcap
      (by rw [hf]; exact hmi) (by rw [hf]; exact hmo)
  rw [iterSpec, hf] at hiter
  simp only [iterDecide] at hiter
  refine ⟨?_, ?_, ?_, ?_⟩
  · intro h1
    have hi := hiter
    have hok : ¬ (rc < 0 ∧ rc ≠ BZ_OUTBUFF_FULL) := by
      rw [h1.1]
      decide
    rw [if_neg hok] at hi
    have hnp : ¬ (tout c2 - tout s1.stream = 0 ∧ eof = false) := by
      intro hh
      rcases h1 with ⟨_, h1b⟩
      omega
    rw [if_neg hnp] at hi
    exact ⟨hi, by simp [postState, h1]⟩
  · intro h2
    have hi := hiter
    have hok : ¬ (rc < 0 ∧ rc ≠ BZ_OUTBUFF_FULL) := by
      rcases h2 with ⟨h2a, _⟩ | h2a | ⟨h2a, _⟩
      · rw [h2a]; decide
      · rw [h2a]; decide
      · intro hh; omega
    rw [if_neg hok] at hi
    have hnd : ¬ (rc = BZ_STREAM_END ∧ 0 < tout c2 - tout s1.stream) := by
      rcases h2 with ⟨h2a, h2b⟩ | h2a | ⟨_, h2b⟩
      · intro hh; omega
      · intro hh
        rw [h2a] at hh
        exact absurd hh.1 (by decide)
      · exact h2b
    have hdone : (postState tin tout s1 c2 rc).done = s1.done := by
      simp only [postState, decide_eq_false hnd, Bool.or_false]
    by_cases h3 : tout c2 - tout s1.stream = 0 ∧ eof = false
    · rw [if_pos h3] at hi
      exact ⟨Or.inl hi, hdone⟩
    · rw [if_neg h3] at hi
      exact ⟨Or.inr hi, hdone⟩
  · intro h3
    have hi := hiter
    rw [if_pos h3] at hi
    exact hi
  · intro t e fuel ht hp hsrc
    rw [innerRead_not_done f tin tout src (fuel + 1) ht, innerLoop_succ]
    have hit : innerIter f tin tout src t = IterOut.ioError e t := by
      unfold innerIter
      rw [refill_error src hp hsrc]
    rw [hit]

/-- A concrete run of the status mapping: the modelled decompressor reaching
the end marker with one decoded byte reports StreamEnd with produced 1, and
the iteration returns that byte with the finished flag set. -/
theorem c3_status_mapping_witness :
    innerIter (decompClosure mDecompress 4) MDecomp.tin MDecomp.tout listSrc
      (Inner.mk (MDecomp.mk 0 0 [] false) [1, 9, 0] [0, 0, 0, 0] 0 0 false)
      = IterOut.ret 1 [9] (Inner.mk (MDecomp.mk 3 1 [0] true) [] [1, 9, 0, 0] 3 3 true) := by
  have h := (@c3_status_mapping (List Nat) MDecomp Unit (decompClosure mDecompress 4)
    MDecomp.tin MDecomp.tout listSrc
    (Inner.mk (MDecomp.mk 0 0 [] false) [1, 9, 0] [0, 0, 0, 0] 0 0 false)
    (Inner.mk (MDecomp.mk 0 0 [] false) [] [1, 9, 0, 0] 3 0 false)
    false (MDecomp.mk 3 1 [0] true) 4 [9]
    rfl (by decide) (by decide) (by decide) (by decide) (by decide)).1 (by decide)
  rw [h.1]
  decide

/-- C10: when an iteration ends in the generic invalid-input error, the state
it leaves is not rolled back: the cursor keeps the advance by the failing
call's consumed delta, cap keeps the value the refill of the same iteration
gave it, done remains false, and a subsequent pull on that state enters the
drive loop again instead of short-circuiting to Ok(0). -/
theorem c10_no_rollback_on_error
    (f : C → List Nat → Bool → C × Int × List Nat) (tin tout : C → Nat)
    (src : σ → List Nat → Except ε (σ × List Nat × Nat))
    {s s1 : Inner σ C} {eof : Bool} {c2 : C} {rc : Int} {w : List Nat}
    (hdone : s.done = false)
    (hrefill : refill src s = Except.ok (s1, eof))
    (hpos : s1.pos ≤ s1.cap) (hcap : s1.cap ≤ s1.buf.length)
    (hf : f s1.stream ((s1.buf.take s1.cap).drop s1.pos) eof = (c2, rc, w))
    (hmi : tin s1.stream ≤ tin c2) (hmo : tout s1.stream ≤ tout c2)
    (herr : rc < 0 ∧ rc ≠ BZ_OUTBUFF_FULL) :
    (∀ fuel, innerRead f tin tout src (fuel + 1) s
      = ReadResult.invalid (postState tin tout s1 c2 rc))
    ∧ (postState tin tout s1 c2 rc).pos = s1.pos + (tin c2 - tin s1.stream)
    ∧ (postState tin tout s1 c2 rc).cap = s1.cap
    ∧ (postState tin tout s1 c2 rc).done = false
    ∧ (∀ fuel, innerRead f tin tout src fuel (postState tin tout s1 c2 rc)
        = innerLoop f tin tout src fuel (postState tin tout s1 c2 rc)) := by
  have hiter : innerIter f tin tout src s = iterSpec f tin tout s1 eof :=
    innerIter_eq_iterSpec f tin tout src hrefill hpos hcap
      (by rw [hf]; exact hmi) (by rw [hf]; exact hmo)
  rw [iterSpec, hf] at hiter
  simp only [iterDecide, if_pos herr] at hiter
  have hsdone : (postState tin tout s1 c2 rc).done = false := by
    have h1 : s1.done = s.done := (refill_frame src hrefill).2.1
    have hrc : ¬ (rc = BZ_STREAM_END ∧ 0 < tout c2 - tout s1.stream) := by
      intro hh
      rw [hh.1] at herr
      exact absurd herr.1 (by norm_num [BZ_STREAM_END])
    simp [postState, h1, hdone, hrc]
    intro ha
    have hnlt : ¬ 0 < tout c2 - tout s1.stream := fun hlt => hrc ⟨ha, hlt⟩
    omega
  refine ⟨?_, rfl, rfl, hsdone, ?_⟩
  · intro fuel
    rw [innerRead_not_done f tin tout src (fuel + 1) hdone, innerLoop_succ, hiter]
  · intro fuel
    exact innerRead_not_done f tin tout src fuel hsdone

/-- A concrete run of the no-rollback behavior: a codec reporting the
unrecognized status -5 after consuming one byte leaves the cursor advanced
and the reader unfinished. -/
theorem c10_no_rollback_on_error_witness :
    innerRead (fun (c : MComp) (input : List Nat) (_ : Bool) =>
        (MComp.mk (c.tin + input.length) c.tout c.pend c.sentEnd, (-5 : Int), []))
      MComp.tin MComp.tout listSrc 1
      (Inner.mk (MComp.mk 0 0 [] false) [9] [0, 0] 0 0 false) =
      ReadResult.invalid (Inner.mk (MComp.mk 1 0 [] false) [] [9, 0] 1 1 false) := by
  have h := @c10_no_rollback_on_error (List Nat) MComp Unit
    (fun (c : MComp) (input : List Nat) (_ : Bool) =>
      (MComp.mk (c.tin + input.length) c.tout c.pend c.sentEnd, (-5 : Int), []))
    MComp.tin MComp.tout listSrc
    (Inner.mk (MComp.mk 0 0 [] false) [9] [0, 0] 0 0 false)
    (Inner.mk (MComp.mk 0 0 [] false) [] [9, 0] 1 0 false)
    false (MComp.mk 1 0 [] false) (-5) []
    rfl rfl (by decide) (by decide) (by decide) (by decide) (by decide) (by decide)
  have h0 := h.1 0
  rw [h0]
  decide

end BzReader
